import Mathlib

/-!
# Text extraction from PDF bytes (`pdfReader/readpdf/readPdf.go`)

A shallow embedding of the pure core of `PDFReader`: the signature guard of
`ReadPDFAsString`, `extractTextFromPDF`, `findStreams`, `tryDecompress`,
`extractTextFromStream`, `cleanPDFText`, `hexToText` and `cleanText`.

Modelling decisions.

* A Go `[]byte` / `string` is a `List Nat` of byte values.
* The regular expressions of the source are all sequences of literal bytes,
  one-byte classes, a greedy or non-greedy star over a one-byte class, and one
  capture group.  They are run by a backtracking matcher with Go's
  leftmost-first priorities (`exec`), and `FindAll...` is the usual scan for
  successive non-overlapping leftmost matches.
* Go's matcher reads UTF-8 runes, an invalid byte counting as one rune.  Every
  byte the patterns name (markers, parentheses, angle brackets, white space,
  newline) is ASCII, and an ASCII byte is never inside a multi-byte rune, so
  matching byte by byte finds the same matches: `.` is "any byte but newline".
* `compress/zlib` is outside the repository: it is the parameter `Zlib`.
-/

namespace ReadPdf

/-! ## Bytes -/

/-- Bytes of an ASCII string literal. -/
def ascii (s : String) : List Nat := s.toList.map Char.toNat

/-- The Go slice expression `b[i:j]`. -/
def slice (b : List Nat) (i j : Nat) : List Nat := (b.drop i).take (j - i)

/-- The Go function `bytes.HasPrefix`. -/
def hasPrefixBytes : List Nat → List Nat → Bool
  | _, [] => true
  | [], _ :: _ => false
  | c :: s, p :: ps => c == p && hasPrefixBytes s ps

/-! ## Regular expressions -/

/-- RE2 class `\s`, that is `[\t\n\f\r ]`. -/
def isSpace (c : Nat) : Bool := c == 9 || c == 10 || c == 12 || c == 13 || c == 32

/-- RE2 `.` without the `s` flag: anything but a newline. -/
def isAnyNotNL (c : Nat) : Bool := c != 10

/-- RE2 class `[0-9A-Fa-f\s]`. -/
def isHexOrSpace (c : Nat) : Bool :=
  (48 ≤ c && c ≤ 57) || (65 ≤ c && c ≤ 70) || (97 ≤ c && c ≤ 102) || isSpace c

/-- Pattern items: the fragment of RE2 syntax that `readPdf.go` uses. -/
inductive Inst where
  | byte (b : Nat)
  | cls (p : Nat → Bool)
  | star (p : Nat → Bool)
  | starLazy (p : Nat → Bool)
  | capOpen
  | capClose

/-- A matcher thread: the input offset and the bounds of capture group 1. -/
structure Thread where
  pos : Nat
  capStart : Nat
  capEnd : Nat
deriving DecidableEq

/-- Consume one byte. -/
def Thread.advance (t : Thread) : Thread := ⟨t.pos + 1, t.capStart, t.capEnd⟩

/-- Greedy `x*` then `k`: the longest run is tried first. -/
def starGreedy (p : Nat → Bool) (k : Thread → List Nat → Option Thread) :
    Thread → List Nat → Option Thread
  | t, [] => k t []
  | t, c :: s =>
    if p c then
      match starGreedy p k t.advance s with
      | some r => some r
      | none => k t (c :: s)
    else k t (c :: s)

/-- Non-greedy `x*?` then `k`: the shortest run is tried first. -/
def starLazy (p : Nat → Bool) (k : Thread → List Nat → Option Thread) :
    Thread → List Nat → Option Thread
  | t, [] => k t []
  | t, c :: s =>
    match k t (c :: s) with
    | some r => some r
    | none => if p c then starLazy p k t.advance s else none

/-- Anchored run of a pattern at the head of the input; the result is the first
match in backtracking priority order. -/
def exec : List Inst → Thread → List Nat → Option Thread
  | [] => fun t _ => some t
  | .byte b :: r => fun t s =>
    match s with
    | c :: s1 => if c = b then exec r t.advance s1 else none
    | [] => none
  | .cls p :: r => fun t s =>
    match s with
    | c :: s1 => if p c then exec r t.advance s1 else none
    | [] => none
  | .star p :: r => starGreedy p (exec r)
  | .starLazy p :: r => starLazy p (exec r)
  | .capOpen :: r => fun t s => exec r ⟨t.pos, t.pos, t.capEnd⟩ s
  | .capClose :: r => fun t s => exec r ⟨t.pos, t.capStart, t.pos⟩ s

/-- One result of `FindAllSubmatchIndex`: bounds of the match and of group 1. -/
structure Submatch where
  start : Nat
  stop : Nat
  capStart : Nat
  capEnd : Nat
deriving DecidableEq

/-- The scan of `FindAll`: at offset `pos`, with `skip` bytes of the previous
match still to pass over, report the successive leftmost matches.  Every
pattern of the source consumes at least one byte, so the rule of Go for empty
matches never applies. -/
def findAllFrom (re : List Inst) : Nat → Nat → List Nat → List Submatch
  | 0, pos, [] =>
    match exec re ⟨pos, 0, 0⟩ [] with
    | some t => [⟨pos, t.pos, t.capStart, t.capEnd⟩]
    | none => []
  | _ + 1, _, [] => []
  | skip + 1, pos, _ :: s => findAllFrom re skip (pos + 1) s
  | 0, pos, c :: s =>
    match exec re ⟨pos, 0, 0⟩ (c :: s) with
    | some t => ⟨pos, t.pos, t.capStart, t.capEnd⟩ :: findAllFrom re (t.pos - pos - 1) (pos + 1) s
    | none => findAllFrom re 0 (pos + 1) s

/-- The Go method `FindAllSubmatchIndex(b, -1)`. -/
def findAllSubmatchIndex (re : List Inst) (b : List Nat) : List Submatch :=
  findAllFrom re 0 0 b

/-- The Go method `FindAllSubmatch(b, -1)`: each match is the slice of the whole
match followed by the slice of group 1. -/
def findAllSubmatch (re : List Inst) (b : List Nat) : List (List (List Nat)) :=
  (findAllSubmatchIndex re b).map fun m => [slice b m.start m.stop, slice b m.capStart m.capEnd]

/-- Literal bytes as pattern items. -/
def lit (s : String) : List Inst := (ascii s).map Inst.byte

/-- The pattern `stream\s*\n(.*?)\nendstream`. -/
def streamRegex : List Inst :=
  lit "stream" ++ [.star isSpace, .byte 10, .capOpen, .starLazy isAnyNotNL, .capClose, .byte 10]
    ++ lit "endstream"

/-- The pattern `\((.*?)\)`. -/
def textRegex : List Inst :=
  [.byte 40, .capOpen, .starLazy isAnyNotNL, .capClose, .byte 41]

/-- The pattern `<([0-9A-Fa-f\s]+)>`. -/
def hexRegex : List Inst :=
  [.byte 60, .capOpen, .cls isHexOrSpace, .star isHexOrSpace, .capClose, .byte 62]

/-- The pattern `\((.*?)\)\s*Tj`. -/
def tjRegex : List Inst :=
  [.byte 40, .capOpen, .starLazy isAnyNotNL, .capClose, .byte 41, .star isSpace, .byte 84, .byte 106]

/-- The pattern `\s+`. -/
def spaceRegex : List Inst := [.cls isSpace, .star isSpace]

/-- The pattern `\n\s*\n`. -/
def newlineRegex : List Inst := [.byte 10, .star isSpace, .byte 10]

/-! ## Library functions of `strings` -/

/-- The Go function `strings.ReplaceAll` for a non-empty `old`: at offset with
`skip` bytes of the previous occurrence still to pass over. -/
def replaceAllFrom (old new : List Nat) : Nat → List Nat → List Nat
  | _, [] => []
  | skip + 1, _ :: s => replaceAllFrom old new skip s
  | 0, c :: s =>
    if hasPrefixBytes (c :: s) old then new ++ replaceAllFrom old new (old.length - 1) s
    else c :: replaceAllFrom old new 0 s

/-- The Go function `strings.ReplaceAll(s, old, new)`, `old` non-empty. -/
def replaceAll (s old new : List Nat) : List Nat := replaceAllFrom old new 0 s

/-- The six bytes of `asciiSpace` in package `strings`. -/
def isAsciiSpace (c : Nat) : Bool :=
  c == 9 || c == 10 || c == 11 || c == 12 || c == 13 || c == 32

/-- Length in bytes of a leading rune for which `unicode.IsSpace` holds, or 0:
the ASCII ones, U+0085, U+00A0, U+1680, U+2000..U+200A, U+2028, U+2029,
U+202F, U+205F and U+3000 in UTF-8. -/
def spaceRuneLen : List Nat → Nat
  | [] => 0
  | a :: s =>
    if isAsciiSpace a then 1
    else match s with
      | b :: c :: _ =>
        if a = 0xC2 ∧ (b = 0x85 ∨ b = 0xA0) then 2
        else if a = 0xE1 ∧ b = 0x9A ∧ c = 0x80 then 3
        else if a = 0xE2 ∧ b = 0x80 ∧ ((0x80 ≤ c ∧ c ≤ 0x8A) ∨ c = 0xA8 ∨ c = 0xA9 ∨ c = 0xAF) then 3
        else if a = 0xE2 ∧ b = 0x81 ∧ c = 0x9F then 3
        else if a = 0xE3 ∧ b = 0x80 ∧ c = 0x80 then 3
        else 0
      | [b] => if a = 0xC2 ∧ (b = 0x85 ∨ b = 0xA0) then 2 else 0
      | [] => 0

/-- Length in bytes of a trailing white-space rune, read on the reversed
string, or 0. -/
def spaceRuneLenRev : List Nat → Nat
  | [] => 0
  | c :: s =>
    if isAsciiSpace c then 1
    else match s with
      | b :: a :: _ =>
        if b = 0xC2 ∧ (c = 0x85 ∨ c = 0xA0) then 2
        else if a = 0xE1 ∧ b = 0x9A ∧ c = 0x80 then 3
        else if a = 0xE2 ∧ b = 0x80 ∧ ((0x80 ≤ c ∧ c ≤ 0x8A) ∨ c = 0xA8 ∨ c = 0xA9 ∨ c = 0xAF) then 3
        else if a = 0xE2 ∧ b = 0x81 ∧ c = 0x9F then 3
        else if a = 0xE3 ∧ b = 0x80 ∧ c = 0x80 then 3
        else 0
      | [b] => if b = 0xC2 ∧ (c = 0x85 ∨ c = 0xA0) then 2 else 0
      | [] => 0

/-- Drop leading runes while `len` finds one, at most `fuel` times. -/
def dropRunes (len : List Nat → Nat) : Nat → List Nat → List Nat
  | 0, s => s
  | fuel + 1, s => if len s = 0 then s else dropRunes len fuel (s.drop (len s))

/-- The Go function `strings.TrimSpace`. -/
def trimSpace (s : List Nat) : List Nat :=
  let l := dropRunes spaceRuneLen s.length s
  (dropRunes spaceRuneLenRev l.length l.reverse).reverse

/-- The Go method `ReplaceAllString(src, repl)` for a replacement without `$`. -/
def regexReplaceFrom (re : List Inst) (repl : List Nat) : Nat → Nat → List Nat → List Nat
  | 0, pos, [] =>
    match exec re ⟨pos, 0, 0⟩ [] with
    | some _ => repl
    | none => []
  | _ + 1, _, [] => []
  | skip + 1, pos, _ :: s => regexReplaceFrom re repl skip (pos + 1) s
  | 0, pos, c :: s =>
    match exec re ⟨pos, 0, 0⟩ (c :: s) with
    | some t => repl ++ regexReplaceFrom re repl (t.pos - pos - 1) (pos + 1) s
    | none => c :: regexReplaceFrom re repl 0 (pos + 1) s

/-- The Go method `ReplaceAllString`. -/
def replaceAllString (re : List Inst) (src repl : List Nat) : List Nat :=
  regexReplaceFrom re repl 0 0 src

/-! ## The reader -/

/-- The struct `PDFReader`. -/
structure PDFReader where
  basePath : List Nat
  verbose : Bool

/-- Package `compress/zlib`, which the repository imports: `newReader` is
`zlib.NewReader` (it checks the header and fails or hands back a reader, here
the data it will read), `readAll` is `io.ReadAll` on that reader. -/
structure Zlib where
  newReader : List Nat → Option (List Nat)
  readAll : List Nat → Option (List Nat)

/-- The method `tryDecompress`; `none` is the nil slice. -/
def tryDecompress (_pr : PDFReader) (z : Zlib) (data : List Nat) : Option (List Nat) :=
  match z.newReader data with
  | none => none
  | some reader =>
    match z.readAll reader with
    | none => none
    | some decompressed => some decompressed

/-- The method `findStreams`. -/
def findStreams (pr : PDFReader) (z : Zlib) (data : List Nat) : List (List Nat) :=
  (findAllSubmatch streamRegex data).foldl
    (fun streams m =>
      match m with
      | _ :: streamData :: _ =>
        match tryDecompress pr z streamData with
        | some decompressed => streams ++ [decompressed]
        | none => streams ++ [streamData]
      | _ => streams)
    []

/-- The rune filter of `cleanPDFText`.  The kept runes are ASCII; a byte of 128
or more is part of a multi-byte rune or an invalid byte, dropped either way. -/
def keepRune (r : Nat) : Bool := (32 ≤ r && r < 127) || r == 10 || r == 13 || r == 9

/-- The method `cleanPDFText`. -/
def cleanPDFText (_pr : PDFReader) (text : List Nat) : List Nat :=
  let text := replaceAll text [92, 110] [10]
  let text := replaceAll text [92, 114] [13]
  let text := replaceAll text [92, 116] [9]
  let text := replaceAll text [92, 40] [40]
  let text := replaceAll text [92, 41] [41]
  let text := replaceAll text [92, 92] [92]
  text.filter keepRune

/-- Value of one hexadecimal digit, as `strconv.ParseUint` in base 16 reads it. -/
def hexDigit (c : Nat) : Option Nat :=
  if 48 ≤ c ∧ c ≤ 57 then some (c - 48)
  else if 97 ≤ c ∧ c ≤ 102 then some (c - 97 + 10)
  else if 65 ≤ c ∧ c ≤ 70 then some (c - 65 + 10)
  else none

/-- The loop of `hexToText` over byte pairs. -/
def hexPairs : List Nat → List Nat
  | a :: b :: s =>
    (match hexDigit a, hexDigit b with
      | some x, some y => if 32 ≤ 16 * x + y ∧ 16 * x + y < 127 then [16 * x + y] else []
      | _, _ => []) ++ hexPairs s
  | _ => []

/-- The method `hexToText`. -/
def hexToText (_pr : PDFReader) (hexStr : List Nat) : List Nat :=
  let hexStr := replaceAll hexStr [32] []
  if hexStr.length % 2 ≠ 0 then [] else hexPairs hexStr

/-- The method `cleanText`. -/
def cleanText (_pr : PDFReader) (text : List Nat) : List Nat :=
  let text := replaceAllString spaceRegex text [32]
  let text := replaceAllString newlineRegex text [10, 10]
  trimSpace text

/-- One round of a pass of `extractTextFromStream`: write a non-empty fragment
and a space to the builder. -/
def writeFragment (text fragment : List Nat) : List Nat :=
  if fragment ≠ [] then text ++ fragment ++ [32] else text

/-- First loop of `extractTextFromStream`: parenthesised literal strings. -/
def literalPass (pr : PDFReader) (streamStr text : List Nat) : List Nat :=
  (findAllSubmatch textRegex streamStr).foldl
    (fun text m =>
      match m with
      | _ :: g :: _ => writeFragment text (cleanPDFText pr g)
      | _ => text)
    text

/-- Second loop of `extractTextFromStream`: hexadecimal strings. -/
def hexPass (pr : PDFReader) (streamStr text : List Nat) : List Nat :=
  (findAllSubmatch hexRegex streamStr).foldl
    (fun text m =>
      match m with
      | _ :: g :: _ => writeFragment text (hexToText pr g)
      | _ => text)
    text

/-- Third loop of `extractTextFromStream`: literal strings before `Tj`. -/
def tjPass (pr : PDFReader) (streamStr text : List Nat) : List Nat :=
  (findAllSubmatch tjRegex streamStr).foldl
    (fun text m =>
      match m with
      | _ :: g :: _ => writeFragment text (cleanPDFText pr g)
      | _ => text)
    text

/-- The method `extractTextFromStream`. -/
def extractTextFromStream (pr : PDFReader) (stream : List Nat) : List Nat :=
  let text := literalPass pr stream []
  let text := hexPass pr stream text
  let text := tjPass pr stream text
  text

/-- The method `extractTextFromPDF`.  The result is Go's pair of the string and
the error, `none` for a nil error.  The `Printf` lines of verbose mode write to
standard output only. -/
def extractTextFromPDF (pr : PDFReader) (z : Zlib) (data : List Nat) : List Nat × Option String :=
  let streams := findStreams pr z data
  let extractedText := streams.foldl
    (fun extractedText stream =>
      let text := extractTextFromStream pr stream
      if text ≠ [] then extractedText ++ text ++ [32] else extractedText)
    []
  let result := cleanText pr extractedText
  (result, none)

/-- The method `ReadPDFAsString` from the point where the file has been read
into `data`: the signature guard, then `extractTextFromPDF`. -/
def ReadPDFAsString (pr : PDFReader) (z : Zlib) (data : List Nat) : List Nat × Option String :=
  if !hasPrefixBytes data (ascii "%PDF-") then ([], some "not a valid PDF file")
  else extractTextFromPDF pr z data

/-- A reader as `NewPDFReader("", false)` makes it. -/
def defaultReader : PDFReader := ⟨[], false⟩

/-- A `Zlib` that rejects every header. -/
def rejectAll : Zlib := ⟨fun _ => none, fun _ => none⟩

/-- The language of a pattern: the strings a run of `exec` may consume. -/
def Accepts : List Inst → List Nat → Prop
  | [], w => w = []
  | .byte b :: r, w => ∃ w1, w = b :: w1 ∧ Accepts r w1
  | .cls p :: r, w => ∃ c w1, w = c :: w1 ∧ p c = true ∧ Accepts r w1
  | .star p :: r, w => ∃ u v, w = u ++ v ∧ (∀ c ∈ u, p c = true) ∧ Accepts r v
  | .starLazy p :: r, w => ∃ u v, w = u ++ v ∧ (∀ c ∈ u, p c = true) ∧ Accepts r v
  | .capOpen :: r, w => Accepts r w
  | .capClose :: r, w => Accepts r w

/-- What one round of the loop of `findStreams` appends for the raw payload of
a match: the decompressed bytes, or the payload when `tryDecompress` gives nil. -/
def streamRecord (pr : PDFReader) (z : Zlib) (raw : List Nat) : List Nat :=
  match tryDecompress pr z raw with
  | some decompressed => decompressed
  | none => raw

/-- Some `stream` marker of the buffer is followed, anywhere later, by an
`endstream` marker. -/
def HasStreamRegion (data : List Nat) : Prop :=
  ∃ a m b, data = a ++ ascii "stream" ++ m ++ ascii "endstream" ++ b

/-- A `Zlib` that accepts the two-byte payload `x` followed by a control byte
and inflates it to `Hi`, and fails while reading `xy`. -/
def sampleZlib : Zlib :=
  ⟨fun data => if data = [120, 1] ∨ data = [120, 121] then some data else none,
    fun reader => if reader = [120, 1] then some [72, 105] else none⟩

/-! ## Reference definitions for the hexadecimal strings -/

/-- A hexadecimal digit, upper or lower case. -/
def isHexDigit (c : Nat) : Bool :=
  (48 ≤ c && c ≤ 57) || (65 ≤ c && c ≤ 70) || (97 ≤ c && c ≤ 102)

/-- The number a hexadecimal digit denotes. -/
def digitValue (c : Nat) : Nat :=
  if c ≤ 57 then c - 48 else if c ≤ 70 then c - 55 else c - 87

/-- The bytes denoted by the successive digit pairs of a string of hexadecimal
digits. -/
def pairValues : List Nat → List Nat
  | a :: b :: s => (16 * digitValue a + digitValue b) :: pairValues s
  | _ => []

/-- The hexadecimal digit of a number below 16, in upper or lower case. -/
def hexChar (upper : Bool) (d : Nat) : Nat :=
  if d < 10 then 48 + d else if upper then 55 + d else 87 + d

/-- The hexadecimal encoding of a byte string, two digits a byte. -/
def hexEncode (upper : Bool) (s : List Nat) : List Nat :=
  s.flatMap fun b => [hexChar upper (b / 16), hexChar upper (b % 16)]

/-! ## Reference definitions for the escape decoding -/

/-- The six `strings.ReplaceAll` calls of `cleanPDFText`, before its filter. -/
def unescape (text : List Nat) : List Nat :=
  let text := replaceAll text [92, 110] [10]
  let text := replaceAll text [92, 114] [13]
  let text := replaceAll text [92, 116] [9]
  let text := replaceAll text [92, 40] [40]
  let text := replaceAll text [92, 41] [41]
  let text := replaceAll text [92, 92] [92]
  text

/-- Every run of white space of class `\s` replaced by one space; `inRun` tells
that the byte before was white space. -/
def collapseFrom : Bool → List Nat → List Nat
  | _, [] => []
  | inRun, c :: s =>
    if isSpace c then (if inRun then collapseFrom true s else 32 :: collapseFrom true s)
    else c :: collapseFrom false s

/-- The only white space of class `\s` in the string is the space character,
never twice in a row; with `prev` set, the string does not start with one. -/
def SingleSpaced : Bool → List Nat → Prop
  | _, [] => True
  | prev, c :: s =>
    if isSpace c then c = 32 ∧ prev = false ∧ SingleSpaced true s else SingleSpaced false s

/-! ## Reference definition for the order of the fragments -/

/-- The non-empty fragments of a list, in order, each followed by one space. -/
def joinFragments (fragments : List (List Nat)) : List Nat :=
  (fragments.filter fun f => !f.isEmpty).flatMap fun f => f ++ [32]

/-! ## Reference definitions for the text without newline -/

/-- White space other than the newline: space, tab, carriage return, form
feed. -/
def isBlank (c : Nat) : Bool := c == 32 || c == 9 || c == 13 || c == 12

/-- Every maximal run of blanks replaced by one space; `inRun` tells that the
byte before was a blank. -/
def collapseBlankFrom : Bool → List Nat → List Nat
  | _, [] => []
  | inRun, c :: s =>
    if isBlank c then (if inRun then collapseBlankFrom true s else 32 :: collapseBlankFrom true s)
    else c :: collapseBlankFrom false s

/-- The leading and the trailing blanks removed. -/
def trimBlank (l : List Nat) : List Nat :=
  ((l.dropWhile isBlank).reverse.dropWhile isBlank).reverse

/-! ## Verbose mode and the file path -/

/-- One line that verbose mode prints: `Found %d streams in PDF`, `Processing
stream %d (length: %d bytes)`, `Total extracted text length: %d characters`. -/
inductive LogLine where
  | foundStreams (n : Nat)
  | processingStream (i : Nat) (length : Nat)
  | totalLength (n : Nat)
deriving DecidableEq

/-- One round of the loop of `extractTextFromPDF` on the printed lines, the
builder and the index `i`. -/
def extractStep (pr : PDFReader) (st : List LogLine × List Nat × Nat) (stream : List Nat) :
    List LogLine × List Nat × Nat :=
  let out := if pr.verbose then st.1 ++ [LogLine.processingStream (st.2.2 + 1) stream.length]
    else st.1
  let text := extractTextFromStream pr stream
  if text ≠ [] then (out, st.2.1 ++ text ++ [32], st.2.2 + 1) else (out, st.2.1, st.2.2 + 1)

/-- The method `extractTextFromPDF` together with the lines it prints to
standard output. -/
def extractTextFromPDFVerbose (pr : PDFReader) (z : Zlib) (data : List Nat) :
    List LogLine × (List Nat × Option String) :=
  let streams := findStreams pr z data
  let out := if pr.verbose then [LogLine.foundStreams streams.length] else []
  let st := streams.foldl (extractStep pr) (out, [], 0)
  let result := cleanText pr st.2.1
  let out := if pr.verbose then st.1 ++ [LogLine.totalLength result.length] else st.1
  (out, (result, none))

/-- Package `path/filepath`, which depends on the operating system:
`filepath.IsAbs` and `filepath.Join`. -/
structure PathLib where
  isAbs : List Nat → Bool
  join : List Nat → List Nat → List Nat

/-- Lower case of an ASCII byte. -/
def toLowerByte (c : Nat) : Nat := if 65 ≤ c ∧ c ≤ 90 then c + 32 else c

/-- The Go function `strings.ToLower` on the ASCII bytes.  The other runes keep
bytes of 128 or more or, for two of them, become `i` or `k`, never a byte of
`.pdf`, so the suffix test of `resolveFilePath` reads the same. -/
def toLower (s : List Nat) : List Nat := s.map toLowerByte

/-- The Go function `strings.HasSuffix`. -/
def hasSuffixBytes (s suffix : List Nat) : Bool := hasPrefixBytes s.reverse suffix.reverse

/-- The method `resolveFilePath`. -/
def resolveFilePath (lib : PathLib) (pr : PDFReader) (filename : List Nat) : List Nat :=
  if lib.isAbs filename || hasSuffixBytes (toLower filename) (ascii ".pdf") then filename
  else
    let basePath := if pr.basePath = [] then ascii "." else pr.basePath
    lib.join basePath (filename ++ ascii ".pdf")

/-- The name ends in `.pdf`, each letter in either case. -/
def EndsInPdf (filename : List Nat) : Prop :=
  ∃ pre a b c, filename = pre ++ [46, a, b, c] ∧ (a = 112 ∨ a = 80) ∧ (b = 100 ∨ b = 68) ∧
    (c = 102 ∨ c = 70)

/-- A path library for examples: a path is absolute when it starts with `/`,
and two paths are joined with `/`. -/
def samplePathLib : PathLib := ⟨fun f => f.head? == some 47, fun a b => a ++ [47] ++ b⟩

/-! ## Lemmas on the matcher -/

theorem hasPrefixBytes_iff (s p : List Nat) : hasPrefixBytes s p = true ↔ p <+: s := by
  induction p generalizing s with
  | nil => simp [hasPrefixBytes]
  | cons a p ih =>
    cases s with
    | nil => simp [hasPrefixBytes]
    | cons c s =>
      simp only [hasPrefixBytes, Bool.and_eq_true, beq_iff_eq, ih, List.cons_prefix_cons]
      constructor
      · rintro ⟨h1, h2⟩; exact ⟨h1.symm, h2⟩
      · rintro ⟨h1, h2⟩; exact ⟨h1.symm, h2⟩

theorem starGreedy_sound (p : Nat → Bool) (k : Thread → List Nat → Option Thread) :
    ∀ (s : List Nat) (t r : Thread), starGreedy p k t s = some r →
      ∃ u v, s = u ++ v ∧ (∀ c ∈ u, p c = true) ∧
        k ⟨t.pos + u.length, t.capStart, t.capEnd⟩ v = some r := by
  intro s
  induction s with
  | nil =>
    intro t r h
    exact ⟨[], [], rfl, by simp, by simpa [starGreedy] using h⟩
  | cons c s ih =>
    intro t r h
    rw [starGreedy] at h
    by_cases hp : p c = true
    · rw [if_pos hp] at h
      cases hrec : starGreedy p k t.advance s with
      | some r1 =>
        rw [hrec] at h
        obtain ⟨u, v, hs, hu, hk⟩ := ih t.advance r1 hrec
        refine ⟨c :: u, v, by simp [hs], ?_, ?_⟩
        · intro x hx
          rcases List.mem_cons.mp hx with rfl | hx
          · exact hp
          · exact hu x hx
        · simp only [Thread.advance, List.length_cons] at hk ⊢
          rw [show t.pos + (u.length + 1) = t.pos + 1 + u.length by omega, hk]
          exact h
      | none =>
        rw [hrec] at h
        exact ⟨[], c :: s, rfl, by simp, by simpa using h⟩
    · rw [if_neg hp] at h
      exact ⟨[], c :: s, rfl, by simp, by simpa using h⟩

theorem starLazy_sound (p : Nat → Bool) (k : Thread → List Nat → Option Thread) :
    ∀ (s : List Nat) (t r : Thread), starLazy p k t s = some r →
      ∃ u v, s = u ++ v ∧ (∀ c ∈ u, p c = true) ∧
        k ⟨t.pos + u.length, t.capStart, t.capEnd⟩ v = some r := by
  intro s
  induction s with
  | nil =>
    intro t r h
    exact ⟨[], [], rfl, by simp, by simpa [starLazy] using h⟩
  | cons c s ih =>
    intro t r h
    rw [starLazy] at h
    cases hk0 : k t (c :: s) with
    | some r1 =>
      rw [hk0] at h
      exact ⟨[], c :: s, rfl, by simp, by simpa [hk0] using h⟩
    | none =>
      rw [hk0] at h
      by_cases hp : p c = true
      · simp only [hp, if_true] at h
        obtain ⟨u, v, hs, hu, hk⟩ := ih t.advance r h
        refine ⟨c :: u, v, by simp [hs], ?_, ?_⟩
        · intro x hx
          rcases List.mem_cons.mp hx with rfl | hx
          · exact hp
          · exact hu x hx
        · simp only [Thread.advance, List.length_cons] at hk ⊢
          rw [show t.pos + (u.length + 1) = t.pos + 1 + u.length by omega, hk]
      · simp [hp] at h

/-- A successful run consumes a word of the pattern's language. -/
theorem exec_sound : ∀ (re : List Inst) (t : Thread) (s : List Nat) (r : Thread),
    exec re t s = some r →
      ∃ w rest, s = w ++ rest ∧ Accepts re w ∧ r.pos = t.pos + w.length := by
  intro re
  induction re with
  | nil =>
    intro t s r h
    simp only [exec, Option.some.injEq] at h
    exact ⟨[], s, rfl, rfl, by simp [h]⟩
  | cons i re ih =>
    intro t s r h
    cases i with
    | byte b =>
      cases s with
      | nil => simp [exec] at h
      | cons c s =>
        simp only [exec] at h
        by_cases hc : c = b
        · rw [if_pos hc] at h
          obtain ⟨w, rest, hs, hw, hpos⟩ := ih _ _ _ h
          exact ⟨b :: w, rest, by simp [hs, hc], ⟨w, rfl, hw⟩,
            by simp [Thread.advance] at hpos; simp [hpos]; omega⟩
        · rw [if_neg hc] at h; simp at h
    | cls p =>
      cases s with
      | nil => simp [exec] at h
      | cons c s =>
        simp only [exec] at h
        by_cases hc : p c = true
        · rw [if_pos hc] at h
          obtain ⟨w, rest, hs, hw, hpos⟩ := ih _ _ _ h
          exact ⟨c :: w, rest, by simp [hs], ⟨c, w, rfl, hc, hw⟩,
            by simp [Thread.advance] at hpos; simp [hpos]; omega⟩
        · rw [if_neg hc] at h; simp at h
    | star p =>
      simp only [exec] at h
      obtain ⟨u, v, hs, hu, hk⟩ := starGreedy_sound p _ s t r h
      obtain ⟨w, rest, hv, hw, hpos⟩ := ih _ _ _ hk
      exact ⟨u ++ w, rest, by simp [hs, hv], ⟨u, w, rfl, hu, hw⟩,
        by simp at hpos; simp [hpos]; omega⟩
    | starLazy p =>
      simp only [exec] at h
      obtain ⟨u, v, hs, hu, hk⟩ := starLazy_sound p _ s t r h
      obtain ⟨w, rest, hv, hw, hpos⟩ := ih _ _ _ hk
      exact ⟨u ++ w, rest, by simp [hs, hv], ⟨u, w, rfl, hu, hw⟩,
        by simp at hpos; simp [hpos]; omega⟩
    | capOpen =>
      simp only [exec] at h
      obtain ⟨w, rest, hs, hw, hpos⟩ := ih _ _ _ h
      exact ⟨w, rest, hs, hw, by simpa using hpos⟩
    | capClose =>
      simp only [exec] at h
      obtain ⟨w, rest, hs, hw, hpos⟩ := ih _ _ _ h
      exact ⟨w, rest, hs, hw, by simpa using hpos⟩

/-- The scan finds nothing when the pattern matches at no suffix of the input. -/
theorem findAllFrom_eq_nil (re : List Inst) :
    ∀ (s : List Nat) (skip pos : Nat),
      (∀ s1 t, s1 <:+ s → exec re t s1 = none) → findAllFrom re skip pos s = [] := by
  intro s
  induction s with
  | nil =>
    intro skip pos h
    cases skip with
    | zero => simp [findAllFrom, h [] _ (List.suffix_refl _)]
    | succ n => simp [findAllFrom]
  | cons c s ih =>
    intro skip pos h
    have hs : ∀ s1 t, s1 <:+ s → exec re t s1 = none :=
      fun s1 t h1 => h s1 t (h1.trans (List.suffix_cons c s))
    cases skip with
    | zero => simp [findAllFrom, h (c :: s) _ (List.suffix_refl _), ih _ _ hs]
    | succ n => simp [findAllFrom, ih _ _ hs]

theorem streamRegex_eq : streamRegex =
    [.byte 115, .byte 116, .byte 114, .byte 101, .byte 97, .byte 109, .star isSpace, .byte 10,
      .capOpen, .starLazy isAnyNotNL, .capClose, .byte 10, .byte 101, .byte 110, .byte 100,
      .byte 115, .byte 116, .byte 114, .byte 101, .byte 97, .byte 109] := by
  rfl

theorem ascii_stream : ascii "stream" = [115, 116, 114, 101, 97, 109] := by decide

theorem ascii_endstream : ascii "endstream" = [101, 110, 100, 115, 116, 114, 101, 97, 109] := by
  decide

/-- Shape of every word of the stream pattern. -/
theorem accepts_streamRegex (w : List Nat) (h : Accepts streamRegex w) :
    ∃ u cap, w = ascii "stream" ++ u ++ 10 :: cap ++ 10 :: ascii "endstream" ∧
      (∀ c ∈ u, isSpace c = true) ∧ (∀ c ∈ cap, isAnyNotNL c = true) := by
  rw [streamRegex_eq] at h
  simp only [Accepts] at h
  obtain ⟨_, rfl, _, rfl, _, rfl, _, rfl, _, rfl, _, rfl, u, _, rfl, hu, _, rfl, cap, _, rfl,
    hcap, _, rfl, _, rfl, _, rfl, _, rfl, _, rfl, _, rfl, _, rfl, _, rfl, _, rfl, _, rfl, rfl⟩ := h
  exact ⟨u, cap, by simp [ascii_stream, ascii_endstream], hu, hcap⟩

/-- A match of the stream pattern inside a buffer is a marked region of it. -/
theorem hasStreamRegion_of_exec (data s1 : List Nat) (t r : Thread) (hs : s1 <:+ data)
    (h : exec streamRegex t s1 = some r) : HasStreamRegion data := by
  obtain ⟨w, rest, hw, hacc, -⟩ := exec_sound _ _ _ _ h
  obtain ⟨u, cap, rfl, -, -⟩ := accepts_streamRegex w hacc
  obtain ⟨pre, rfl⟩ := hs
  exact ⟨pre, u ++ 10 :: cap ++ [10], rest, by simp [hw]⟩

theorem findStreams_eq_nil_of_no_region (pr : PDFReader) (z : Zlib) (data : List Nat)
    (h : ¬ HasStreamRegion data) : findStreams pr z data = [] := by
  have hnil : findAllFrom streamRegex 0 0 data = [] := by
    apply findAllFrom_eq_nil
    intro s1 t hs
    cases hex : exec streamRegex t s1 with
    | none => rfl
    | some r => exact absurd (hasStreamRegion_of_exec data s1 t r hs hex) h
  simp [findStreams, findAllSubmatch, findAllSubmatchIndex, hnil]

theorem cleanText_nil (pr : PDFReader) : cleanText pr [] = [] := by
  rfl

theorem extractTextFromPDF_of_no_streams (pr : PDFReader) (z : Zlib) (data : List Nat)
    (h : findStreams pr z data = []) : extractTextFromPDF pr z data = ([], none) := by
  simp [extractTextFromPDF, h, cleanText_nil]

theorem no_region_of_no_endstream (data : List Nat) (h : ¬ (ascii "endstream" <:+: data)) :
    ¬ HasStreamRegion data := by
  rintro ⟨a, m, b, rfl⟩
  exact h ⟨a ++ ascii "stream" ++ m, b, by simp⟩

/-! ## Runs of the star operators -/

theorem exec_byte_cons (b : Nat) (r : List Inst) (t : Thread) (c : Nat) (s : List Nat) :
    exec (.byte b :: r) t (c :: s) = if c = b then exec r t.advance s else none := rfl

theorem exec_byte_nil (b : Nat) (r : List Inst) (t : Thread) :
    exec (.byte b :: r) t [] = none := rfl

theorem exec_cls_cons (p : Nat → Bool) (r : List Inst) (t : Thread) (c : Nat) (s : List Nat) :
    exec (.cls p :: r) t (c :: s) = if p c then exec r t.advance s else none := rfl

theorem exec_cls_nil (p : Nat → Bool) (r : List Inst) (t : Thread) :
    exec (.cls p :: r) t [] = none := rfl

theorem exec_star (p : Nat → Bool) (r : List Inst) (t : Thread) (s : List Nat) :
    exec (.star p :: r) t s = starGreedy p (exec r) t s := rfl

theorem exec_starLazy (p : Nat → Bool) (r : List Inst) (t : Thread) (s : List Nat) :
    exec (.starLazy p :: r) t s = starLazy p (exec r) t s := rfl

theorem exec_capOpen (r : List Inst) (t : Thread) (s : List Nat) :
    exec (.capOpen :: r) t s = exec r ⟨t.pos, t.pos, t.capEnd⟩ s := rfl

theorem exec_capClose (r : List Inst) (t : Thread) (s : List Nat) :
    exec (.capClose :: r) t s = exec r ⟨t.pos, t.capStart, t.pos⟩ s := rfl

theorem exec_nil (t : Thread) (s : List Nat) : exec [] t s = some t := rfl

/-- A non-greedy star steps over bytes of its class at which the continuation
cannot start. -/
theorem starLazy_skip (p : Nat → Bool) (k : Thread → List Nat → Option Thread) :
    ∀ (u s : List Nat) (t : Thread),
      (∀ c ∈ u, p c = true ∧ ∀ t1 s1, k t1 (c :: s1) = none) →
      starLazy p k t (u ++ s) = starLazy p k ⟨t.pos + u.length, t.capStart, t.capEnd⟩ s := by
  intro u
  induction u with
  | nil => intro s t _; simp
  | cons c u ih =>
    intro s t h
    have hc := h c (List.mem_cons_self _ _)
    have hu : ∀ x ∈ u, p x = true ∧ ∀ t1 s1, k t1 (x :: s1) = none :=
      fun x hx => h x (List.mem_cons_of_mem _ hx)
    rw [List.cons_append, starLazy, hc.2, if_pos hc.1, ih s _ hu]
    simp only [Thread.advance, List.length_cons]
    rw [show t.pos + (u.length + 1) = t.pos + 1 + u.length by omega]

/-- A greedy star that succeeds after the whole run returns that result. -/
theorem starGreedy_run_some (p : Nat → Bool) (k : Thread → List Nat → Option Thread) :
    ∀ (w s : List Nat) (t r : Thread), (∀ c ∈ w, p c = true) →
      starGreedy p k ⟨t.pos + w.length, t.capStart, t.capEnd⟩ s = some r →
      starGreedy p k t (w ++ s) = some r := by
  intro w
  induction w with
  | nil => intro s t r _ h; simpa using h
  | cons c w ih =>
    intro s t r hw h
    have hc := hw c (List.mem_cons_self _ _)
    have hrec : starGreedy p k t.advance (w ++ s) = some r := by
      apply ih s _ r (fun x hx => hw x (List.mem_cons_of_mem _ hx))
      simp only [Thread.advance, List.length_cons] at h ⊢
      rw [show t.pos + 1 + w.length = t.pos + (w.length + 1) by omega]
      exact h
    rw [List.cons_append, starGreedy, if_pos hc, hrec]

/-- The scan passes over the bytes of the previous match. -/
theorem findAllFrom_skip (re : List Inst) :
    ∀ (u s : List Nat) (pos : Nat),
      findAllFrom re u.length pos (u ++ s) = findAllFrom re 0 (pos + u.length) s := by
  intro u
  induction u with
  | nil => intro s pos; simp
  | cons c u ih =>
    intro s pos
    rw [List.cons_append, List.length_cons, findAllFrom, ih]
    rw [show pos + 1 + u.length = pos + (u.length + 1) by omega]

/-- A pattern that starts with a literal byte matches nowhere in an input
without that byte. -/
theorem findAllFrom_first_byte (b : Nat) (re : List Inst) (s : List Nat) (pos : Nat)
    (h : b ∉ s) : findAllFrom (.byte b :: re) 0 pos s = [] := by
  apply findAllFrom_eq_nil
  intro s1 t hs
  cases s1 with
  | nil => simp [exec]
  | cons c s1 =>
    have hc : c ≠ b := by
      rintro rfl
      exact h (hs.subset (List.mem_cons_self _ _))
    simp [exec, hc]

theorem slice_mid (a m b : List Nat) : slice (a ++ m ++ b) a.length (a.length + m.length) = m := by
  simp [slice]

/-! ## The stream pattern on one region -/

/-- After `stream` and its newline, a longer run of `\s*` leads nowhere when the
payload has no newline and the buffer ends at `endstream`. -/
theorem starGreedy_stream_tail :
    ∀ (P : List Nat) (t : Thread), 10 ∉ P →
      starGreedy isSpace
        (exec [.byte 10, .capOpen, .starLazy isAnyNotNL, .capClose, .byte 10, .byte 101,
          .byte 110, .byte 100, .byte 115, .byte 116, .byte 114, .byte 101, .byte 97, .byte 109])
        t (P ++ 10 :: ascii "endstream") = none := by
  intro P
  induction P with
  | nil =>
    intro t _
    simp [ascii_endstream, starGreedy, starLazy, exec, isSpace, isAnyNotNL]
  | cons c P ih =>
    intro t h
    have hc : c ≠ 10 := fun e => h (by simp [e])
    have hP : 10 ∉ P := fun e => h (List.mem_cons_of_mem _ e)
    rw [List.cons_append, starGreedy, ih _ hP]
    simp [exec, hc]

/-- The stream pattern on `stream`, newline, `P`, newline, `endstream`, where
`P` has no newline: the match is the whole input and group 1 is `P`. -/
theorem exec_stream_single (P : List Nat) (t : Thread) (hP : 10 ∉ P) :
    exec streamRegex t (ascii "stream" ++ 10 :: P ++ 10 :: ascii "endstream") =
      some ⟨t.pos + 17 + P.length, t.pos + 7, t.pos + 7 + P.length⟩ := by
  have hskip : ∀ c ∈ P, isAnyNotNL c = true ∧ ∀ t1 s1,
      exec [.capClose, .byte 10, .byte 101, .byte 110, .byte 100, .byte 115, .byte 116,
        .byte 114, .byte 101, .byte 97, .byte 109] t1 (c :: s1) = none := by
    intro c hc
    have hne : c ≠ 10 := fun e => hP (e ▸ hc)
    exact ⟨by simp [isAnyNotNL, hne], fun t1 s1 => by simp [exec, hne]⟩
  rw [streamRegex_eq, ascii_stream]
  simp only [List.cons_append, List.nil_append, exec_byte_cons, if_true, exec_star]
  rw [starGreedy, if_pos (by decide), starGreedy_stream_tail P _ hP]
  simp only [exec_byte_cons, if_true, exec_capOpen, exec_starLazy]
  rw [starLazy_skip _ _ P _ _ hskip, starLazy]
  simp [ascii_endstream, exec, Thread.advance]
  omega

theorem findAllFrom_cons_some (re : List Inst) (pos c : Nat) (s : List Nat) (t : Thread)
    (h : exec re ⟨pos, 0, 0⟩ (c :: s) = some t) :
    findAllFrom re 0 pos (c :: s) =
      ⟨pos, t.pos, t.capStart, t.capEnd⟩ :: findAllFrom re (t.pos - pos - 1) (pos + 1) s := by
  simp [findAllFrom, h]

theorem findAllFrom_cons_none (re : List Inst) (pos c : Nat) (s : List Nat)
    (h : exec re ⟨pos, 0, 0⟩ (c :: s) = none) :
    findAllFrom re 0 pos (c :: s) = findAllFrom re 0 (pos + 1) s := by
  simp [findAllFrom, h]

/-- Nothing is found once the previous match reaches the end of the input. -/
theorem findAllFrom_skip_all (re : List Inst) (h : ∀ t, exec re t [] = none) :
    ∀ (s : List Nat) (skip pos : Nat), s.length ≤ skip → findAllFrom re skip pos s = [] := by
  intro s
  induction s with
  | nil =>
    intro skip pos _
    cases skip with
    | zero => simp [findAllFrom, h]
    | succ n => simp [findAllFrom]
  | cons c s ih =>
    intro skip pos hlen
    cases skip with
    | zero => simp at hlen
    | succ n =>
      rw [findAllFrom]
      exact ih _ _ (by simpa using hlen)

/-- Every reported match is a run of the pattern at its start offset, which is
past the bytes that were to be skipped. -/
theorem mem_findAllFrom (re : List Inst) :
    ∀ (s : List Nat) (skip pos : Nat) (m : Submatch), m ∈ findAllFrom re skip pos s →
      ∃ a s1, s = a ++ s1 ∧ m.start = pos + a.length ∧ skip ≤ a.length ∧
        exec re ⟨m.start, 0, 0⟩ s1 = some ⟨m.stop, m.capStart, m.capEnd⟩ := by
  intro s
  induction s with
  | nil =>
    intro skip pos m hm
    cases skip with
    | succ n => simp [findAllFrom] at hm
    | zero =>
      cases hex : exec re ⟨pos, 0, 0⟩ [] with
      | none => simp [findAllFrom, hex] at hm
      | some t =>
        simp only [findAllFrom, hex, List.mem_singleton] at hm
        subst hm
        exact ⟨[], [], rfl, rfl, le_refl _, hex⟩
  | cons c s ih =>
    intro skip pos m hm
    cases skip with
    | succ n =>
      rw [findAllFrom] at hm
      obtain ⟨a, s1, hs, hstart, hskip, hex⟩ := ih _ _ m hm
      exact ⟨c :: a, s1, by simp [hs], by simp [hstart]; omega, by simpa using hskip, hex⟩
    | zero =>
      cases hex : exec re ⟨pos, 0, 0⟩ (c :: s) with
      | none =>
        rw [findAllFrom_cons_none re pos c s hex] at hm
        obtain ⟨a, s1, hs, hstart, -, hex1⟩ := ih _ _ m hm
        exact ⟨c :: a, s1, by simp [hs], by simp [hstart]; omega, Nat.zero_le _, hex1⟩
      | some t =>
        rw [findAllFrom_cons_some re pos c s t hex] at hm
        rcases List.mem_cons.mp hm with rfl | hm
        · exact ⟨[], c :: s, rfl, rfl, le_refl _, hex⟩
        · obtain ⟨a, s1, hs, hstart, -, hex1⟩ := ih _ _ m hm
          exact ⟨c :: a, s1, by simp [hs], by simp [hstart]; omega, Nat.zero_le _, hex1⟩

/-- Successive matches do not overlap: each starts at or after the end of the
one before. -/
theorem findAllFrom_pairwise (re : List Inst) :
    ∀ (s : List Nat) (skip pos : Nat),
      (findAllFrom re skip pos s).Pairwise (fun a b => a.stop ≤ b.start) := by
  intro s
  induction s with
  | nil =>
    intro skip pos
    cases skip with
    | succ n => simp [findAllFrom]
    | zero =>
      cases hex : exec re ⟨pos, 0, 0⟩ [] <;> simp [findAllFrom, hex]
  | cons c s ih =>
    intro skip pos
    cases skip with
    | succ n =>
      rw [findAllFrom]
      exact ih _ _
    | zero =>
      cases hex : exec re ⟨pos, 0, 0⟩ (c :: s) with
      | none =>
        rw [findAllFrom_cons_none re pos c s hex]
        exact ih _ _
      | some t =>
        rw [findAllFrom_cons_some re pos c s t hex, List.pairwise_cons]
        refine ⟨?_, ih _ _⟩
        intro m hm
        obtain ⟨a, s1, -, hstart, hskip, -⟩ := mem_findAllFrom re s _ _ m hm
        show t.pos ≤ m.start
        omega

/-- The loop of `findStreams` appends one record per match, in match order. -/
theorem findStreams_eq_map (pr : PDFReader) (z : Zlib) (data : List Nat) :
    findStreams pr z data =
      (findAllSubmatchIndex streamRegex data).map
        (fun m => streamRecord pr z (slice data m.capStart m.capEnd)) := by
  have key : ∀ (l : List Submatch) (acc : List (List Nat)),
      (l.map fun m => [slice data m.start m.stop, slice data m.capStart m.capEnd]).foldl
        (fun streams m =>
          match m with
          | _ :: streamData :: _ =>
            match tryDecompress pr z streamData with
            | some decompressed => streams ++ [decompressed]
            | none => streams ++ [streamData]
          | _ => streams) acc =
      acc ++ l.map (fun m => streamRecord pr z (slice data m.capStart m.capEnd)) := by
    intro l
    induction l with
    | nil => intro acc; simp
    | cons m l ih =>
      intro acc
      rw [List.map_cons, List.foldl_cons, ih, List.map_cons]
      simp only [streamRecord]
      cases tryDecompress pr z (slice data m.capStart m.capEnd) <;> simp
  simpa [findStreams, findAllSubmatch] using key (findAllSubmatchIndex streamRegex data) []

/-- The matches of the stream pattern in a buffer made of one single-line
region. -/
theorem findAll_stream_single (P : List Nat) (hP : 10 ∉ P) :
    findAllSubmatchIndex streamRegex (ascii "stream" ++ 10 :: P ++ 10 :: ascii "endstream") =
      [⟨0, 17 + P.length, 7, 7 + P.length⟩] := by
  have hex := exec_stream_single P ⟨0, 0, 0⟩ hP
  have hnil : ∀ t, exec streamRegex t [] = none := fun t => rfl
  rw [ascii_stream] at hex ⊢
  simp only [List.cons_append, List.nil_append] at hex ⊢
  rw [findAllSubmatchIndex, findAllFrom_cons_some _ _ _ _ _ hex,
    findAllFrom_skip_all _ hnil _ _ _ (by simp [ascii_endstream]; omega)]

theorem findStreams_single (pr : PDFReader) (z : Zlib) (P : List Nat) (hP : 10 ∉ P) :
    findStreams pr z (ascii "stream" ++ 10 :: P ++ 10 :: ascii "endstream") =
      [streamRecord pr z P] := by
  rw [findStreams_eq_map, findAll_stream_single P hP]
  have h := slice_mid (ascii "stream" ++ [10]) P (10 :: ascii "endstream")
  simp only [List.append_assoc, List.singleton_append, List.length_append, List.length_singleton]
    at h
  have h6 : (ascii "stream").length = 6 := by decide
  rw [h6] at h
  simp only [List.map_cons, List.map_nil, List.append_assoc]
  rw [show (7 : Nat) = 6 + 1 from rfl, h]

/-- Every word of the stream pattern has a newline. -/
theorem newline_mem_of_exec_stream (s1 : List Nat) (t r : Thread)
    (h : exec streamRegex t s1 = some r) : 10 ∈ s1 := by
  obtain ⟨w, rest, rfl, hacc, -⟩ := exec_sound _ _ _ _ h
  obtain ⟨u, cap, rfl, -, -⟩ := accepts_streamRegex w hacc
  simp

theorem findStreams_eq_nil_of_no_newline (pr : PDFReader) (z : Zlib) (data : List Nat)
    (h : 10 ∉ data) : findStreams pr z data = [] := by
  have hnil : findAllFrom streamRegex 0 0 data = [] := by
    apply findAllFrom_eq_nil
    intro s1 t hs
    cases hex : exec streamRegex t s1 with
    | none => rfl
    | some r => exact absurd (hs.subset (newline_mem_of_exec_stream s1 t r hex)) h
  simp [findStreams, findAllSubmatch, findAllSubmatchIndex, hnil]

/-! ## The format guard -/

/-- C1: a buffer whose first five bytes are not `%PDF-`, in particular a buffer
of fewer than five bytes, makes `ReadPDFAsString` return the error "not a valid
PDF file" and the empty string. -/
theorem ReadPDFAsString_invalid (pr : PDFReader) (z : Zlib) (data : List Nat)
    (h : ¬ (ascii "%PDF-" <+: data) ∨ data.length < 5) :
    ReadPDFAsString pr z data = ([], some "not a valid PDF file") := by
  have hp : ¬ (ascii "%PDF-" <+: data) := by
    rcases h with h | h
    · exact h
    · intro hpre
      have := hpre.length_le
      simp [ascii] at this
      omega
  have hb : hasPrefixBytes data (ascii "%PDF-") = false := by
    rw [← Bool.not_eq_true, hasPrefixBytes_iff]
    exact hp
  simp [ReadPDFAsString, hb]

theorem ReadPDFAsString_invalid_witness :
    (¬ (ascii "%PDF-" <+: ascii "%PD") ∨ (ascii "%PD").length < 5) ∧
      ReadPDFAsString defaultReader rejectAll (ascii "%PD") = ([], some "not a valid PDF file") :=
  ⟨Or.inr (by decide), ReadPDFAsString_invalid defaultReader rejectAll (ascii "%PD")
    (Or.inr (by decide))⟩

/-- C2: on a buffer that starts with `%PDF-`, `ReadPDFAsString` returns what
`extractTextFromPDF` returns, with a nil error; `extractTextFromPDF` returns a
nil error on every input, whatever `zlib` does. -/
theorem ReadPDFAsString_valid (pr : PDFReader) (z : Zlib) (data : List Nat)
    (h : ascii "%PDF-" <+: data) :
    (ReadPDFAsString pr z data).2 = none ∧
      ReadPDFAsString pr z data = extractTextFromPDF pr z data ∧
      ∀ d, (extractTextFromPDF pr z d).2 = none := by
  have hb : hasPrefixBytes data (ascii "%PDF-") = true := (hasPrefixBytes_iff _ _).mpr h
  refine ⟨?_, ?_, ?_⟩
  · simp [ReadPDFAsString, hb, extractTextFromPDF]
  · simp [ReadPDFAsString, hb]
  · intro d
    simp [extractTextFromPDF]

theorem ReadPDFAsString_valid_witness :
    (ReadPDFAsString defaultReader rejectAll (ascii "%PDF-1.4\n<6>")).2 = none ∧
      ReadPDFAsString defaultReader rejectAll (ascii "%PDF-1.4\n<6>") =
        extractTextFromPDF defaultReader rejectAll (ascii "%PDF-1.4\n<6>") ∧
      ∀ d, (extractTextFromPDF defaultReader rejectAll d).2 = none :=
  ReadPDFAsString_valid defaultReader rejectAll (ascii "%PDF-1.4\n<6>") (by decide)

/-! ## The stream locator -/

/-- C4: a buffer that starts with `%PDF-` and in which no `stream` marker is
followed by an `endstream` marker has no stream, and the extracted text is the
empty string with a nil error. -/
theorem no_region_extracts_empty (pr : PDFReader) (z : Zlib) (data : List Nat)
    (hsig : ascii "%PDF-" <+: data) (h : ¬ HasStreamRegion data) :
    findStreams pr z data = [] ∧ ReadPDFAsString pr z data = ([], none) := by
  have hf := findStreams_eq_nil_of_no_region pr z data h
  have hb : hasPrefixBytes data (ascii "%PDF-") = true := (hasPrefixBytes_iff _ _).mpr hsig
  refine ⟨hf, ?_⟩
  simp [ReadPDFAsString, hb, extractTextFromPDF_of_no_streams pr z data hf]

theorem no_region_extracts_empty_witness :
    findStreams defaultReader rejectAll (ascii "%PDF-1.4\n(Title)Tj") = [] ∧
      ReadPDFAsString defaultReader rejectAll (ascii "%PDF-1.4\n(Title)Tj") = ([], none) :=
  no_region_extracts_empty defaultReader rejectAll (ascii "%PDF-1.4\n(Title)Tj") (by decide)
    (no_region_of_no_endstream _ (by decide))

/-- C7: a buffer in which `endstream` does not occur, such as one with an
unclosed `stream` marker, has no stream, and `extractTextFromPDF` returns the
empty text with a nil error. -/
theorem unmatched_stream_dropped (pr : PDFReader) (z : Zlib) (data : List Nat)
    (h : ¬ (ascii "endstream" <:+: data)) :
    findStreams pr z data = [] ∧ extractTextFromPDF pr z data = ([], none) := by
  have hf := findStreams_eq_nil_of_no_region pr z data (no_region_of_no_endstream data h)
  exact ⟨hf, extractTextFromPDF_of_no_streams pr z data hf⟩

theorem unmatched_stream_dropped_witness :
    findStreams defaultReader rejectAll (ascii "%PDF-1.4\nstream\n(lost)Tj\n") = [] ∧
      extractTextFromPDF defaultReader rejectAll (ascii "%PDF-1.4\nstream\n(lost)Tj\n") =
        ([], none) :=
  unmatched_stream_dropped defaultReader rejectAll (ascii "%PDF-1.4\nstream\n(lost)Tj\n")
    (by decide)

/-- C5: on the buffer `stream`, newline, `(A)Tj`, newline, `(B)Tj`, newline,
`endstream`, whose payload has two lines and no `endstream`, `findStreams`
returns no stream at all, for every reader and every `zlib`. -/
theorem findStreams_two_line_payload (pr : PDFReader) (z : Zlib) :
    findStreams pr z (ascii "stream\n(A)Tj\n(B)Tj\nendstream") = [] := by
  rw [findStreams_eq_map,
    show findAllSubmatchIndex streamRegex (ascii "stream\n(A)Tj\n(B)Tj\nendstream") = [] by decide]
  rfl

/-- C6, as the code has it: both newlines are required.  For a payload `P`
without a newline, `stream` ++ `P` ++ `endstream` has no stream, and `stream`,
newline, `P`, newline, `endstream` has exactly one, whose raw payload is `P`. -/
theorem stream_newlines_required (pr : PDFReader) (z : Zlib) (P : List Nat) (hP : 10 ∉ P) :
    findStreams pr z (ascii "stream" ++ P ++ ascii "endstream") = [] ∧
      findStreams pr z (ascii "stream" ++ 10 :: P ++ 10 :: ascii "endstream") =
        [streamRecord pr z P] := by
  refine ⟨?_, findStreams_single pr z P hP⟩
  apply findStreams_eq_nil_of_no_newline
  simp [ascii_stream, ascii_endstream, hP]

theorem stream_newlines_required_witness :
    findStreams defaultReader rejectAll (ascii "stream" ++ ascii "(A)Tj" ++ ascii "endstream") = [] ∧
      findStreams defaultReader rejectAll
          (ascii "stream" ++ 10 :: ascii "(A)Tj" ++ 10 :: ascii "endstream") =
        [streamRecord defaultReader rejectAll (ascii "(A)Tj")] :=
  stream_newlines_required defaultReader rejectAll (ascii "(A)Tj") (by decide)

/-- C6 as stated fails: without the newlines the region `stream(A)Tjendstream`
is not located, with them it is. -/
theorem stream_without_newlines_not_found :
    findStreams defaultReader rejectAll (ascii "stream(A)Tjendstream") = [] ∧
      findStreams defaultReader rejectAll (ascii "stream\n(A)Tj\nendstream") = [ascii "(A)Tj"] := by
  decide

/-- Every match of the stream pattern is a non-empty range of the buffer. -/
theorem stream_match_bounds (data : List Nat) (m : Submatch)
    (hm : m ∈ findAllSubmatchIndex streamRegex data) :
    m.start < m.stop ∧ m.stop ≤ data.length := by
  obtain ⟨a, s1, hs, hstart, -, hex⟩ := mem_findAllFrom streamRegex data 0 0 m hm
  obtain ⟨w, rest, hw, hacc, hpos⟩ := exec_sound _ _ _ _ hex
  obtain ⟨u, cap, hshape, -, -⟩ := accepts_streamRegex w hacc
  have hlen : 17 ≤ w.length := by
    rw [hshape]
    simp [ascii_stream, ascii_endstream]
    omega
  have hdata : data.length = a.length + (w.length + rest.length) := by
    rw [hs, hw]
    simp
  simp only at hpos
  omega

/-- The loop of `extractTextFromPDF` writes, stream after stream, the text of
the stream and a space when that text is not empty. -/
theorem extractTextFromPDF_loop (pr : PDFReader) (streams : List (List Nat)) :
    ∀ acc : List Nat,
      streams.foldl
        (fun extractedText stream =>
          if extractTextFromStream pr stream ≠ [] then
            extractedText ++ extractTextFromStream pr stream ++ [32]
          else extractedText) acc =
      acc ++ streams.flatMap fun stream =>
        if extractTextFromStream pr stream = [] then []
        else extractTextFromStream pr stream ++ [32] := by
  induction streams with
  | nil => intro acc; simp
  | cons x l ih =>
    intro acc
    rw [List.foldl_cons, ih, List.flatMap_cons]
    by_cases hx : extractTextFromStream pr x = [] <;> simp [hx]

/-- C8: `findStreams` returns one record per match of the stream pattern, in
match order; the matches are non-empty ranges of the buffer in ascending
start offset that do not overlap; `extractTextFromPDF` is `cleanText` of the
texts of the streams in that order, each non-empty one followed by a space;
and two identical regions give two records. -/
theorem streams_in_document_order (pr : PDFReader) (z : Zlib) (data : List Nat) :
    findStreams pr z data =
        (findAllSubmatchIndex streamRegex data).map
          (fun m => streamRecord pr z (slice data m.capStart m.capEnd)) ∧
      (findAllSubmatchIndex streamRegex data).Pairwise
        (fun a b => a.start < b.start ∧ a.stop ≤ b.start) ∧
      (∀ m ∈ findAllSubmatchIndex streamRegex data, m.start < m.stop ∧ m.stop ≤ data.length) ∧
      extractTextFromPDF pr z data =
        (cleanText pr ((findStreams pr z data).flatMap fun stream =>
          if extractTextFromStream pr stream = [] then []
          else extractTextFromStream pr stream ++ [32]), none) ∧
      findStreams pr z (ascii "stream\nA\nendstream stream\nA\nendstream") =
        [streamRecord pr z (ascii "A"), streamRecord pr z (ascii "A")] := by
  refine ⟨findStreams_eq_map pr z data, ?_, stream_match_bounds data, ?_, ?_⟩
  · refine List.Pairwise.imp_of_mem ?_ (findAllFrom_pairwise streamRegex data 0 0)
    intro a b ha _ hab
    have := (stream_match_bounds data a ha).1
    exact ⟨by omega, hab⟩
  · have h := extractTextFromPDF_loop pr (findStreams pr z data) []
    simp only [List.nil_append] at h
    simp only [extractTextFromPDF, h]
  · rw [findStreams_eq_map,
      show findAllSubmatchIndex streamRegex (ascii "stream\nA\nendstream stream\nA\nendstream") =
        [⟨0, 18, 7, 8⟩, ⟨19, 37, 26, 27⟩] by decide]
    simp only [List.map_cons, List.map_nil]
    rw [show slice (ascii "stream\nA\nendstream stream\nA\nendstream") 7 8 = ascii "A" by decide,
      show slice (ascii "stream\nA\nendstream stream\nA\nendstream") 26 27 = ascii "A" by decide]

/-- C9: the record of a stream is the output of `zlib` when both the header
check and the read succeed, and otherwise the raw payload itself; every match
gets its record, so a failed decompression removes nothing. -/
theorem decompression_fallback (pr : PDFReader) (z : Zlib) (data : List Nat) :
    findStreams pr z data =
        (findAllSubmatchIndex streamRegex data).map
          (fun m => streamRecord pr z (slice data m.capStart m.capEnd)) ∧
      (findStreams pr z data).length = (findAllSubmatchIndex streamRegex data).length ∧
      ∀ raw : List Nat,
        (∀ reader d, z.newReader raw = some reader → z.readAll reader = some d →
          streamRecord pr z raw = d) ∧
        (z.newReader raw = none → streamRecord pr z raw = raw) ∧
        (∀ reader, z.newReader raw = some reader → z.readAll reader = none →
          streamRecord pr z raw = raw) := by
  refine ⟨findStreams_eq_map pr z data, by simp [findStreams_eq_map], ?_⟩
  intro raw
  refine ⟨?_, ?_, ?_⟩
  · intro reader d h1 h2
    simp [streamRecord, tryDecompress, h1, h2]
  · intro h1
    simp [streamRecord, tryDecompress, h1]
  · intro reader h1 h2
    simp [streamRecord, tryDecompress, h1, h2]

theorem decompression_fallback_witness :
    findStreams defaultReader sampleZlib
        (ascii "stream\n" ++ [120, 1] ++ ascii "\nendstream stream\nxy\nendstream stream\nab\nendstream") =
      [ascii "Hi", ascii "xy", ascii "ab"] := by
  have h := decompression_fallback defaultReader sampleZlib
    (ascii "stream\n" ++ [120, 1] ++ ascii "\nendstream stream\nxy\nendstream stream\nab\nendstream")
  rw [h.1]
  decide

/-! ## The token extractor on one literal string -/

/-- The literal-string pattern on `(`, `X`, `)`, where `X` has neither `)` nor a
newline: the match ends at that `)` and group 1 is `X`. -/
theorem exec_text_single (X rest : List Nat) (t : Thread) (h1 : 41 ∉ X) (h2 : 10 ∉ X) :
    exec textRegex t (40 :: (X ++ 41 :: rest)) =
      some ⟨t.pos + X.length + 2, t.pos + 1, t.pos + 1 + X.length⟩ := by
  have hskip : ∀ c ∈ X, isAnyNotNL c = true ∧ ∀ t1 s1,
      exec [.capClose, .byte 41] t1 (c :: s1) = none := by
    intro c hc
    have hne : c ≠ 10 := fun e => h2 (e ▸ hc)
    have hne1 : c ≠ 41 := fun e => h1 (e ▸ hc)
    exact ⟨by simp [isAnyNotNL, hne], fun t1 s1 => by simp [exec, hne1]⟩
  rw [textRegex]
  simp only [exec_byte_cons, if_true, exec_capOpen, exec_starLazy]
  rw [starLazy_skip _ _ X _ _ hskip, starLazy]
  simp [exec, Thread.advance]
  omega

/-- The text-show pattern on `(`, `X`, `)`, white space `w`, `Tj`. -/
theorem exec_tj_single (X w rest : List Nat) (t : Thread) (h1 : 41 ∉ X) (h2 : 10 ∉ X)
    (hw : ∀ c ∈ w, isSpace c = true) :
    exec tjRegex t (40 :: (X ++ 41 :: (w ++ 84 :: 106 :: rest))) =
      some ⟨t.pos + X.length + w.length + 4, t.pos + 1, t.pos + 1 + X.length⟩ := by
  have hskip : ∀ c ∈ X, isAnyNotNL c = true ∧ ∀ t1 s1,
      exec [.capClose, .byte 41, .star isSpace, .byte 84, .byte 106] t1 (c :: s1) = none := by
    intro c hc
    have hne : c ≠ 10 := fun e => h2 (e ▸ hc)
    have hne1 : c ≠ 41 := fun e => h1 (e ▸ hc)
    exact ⟨by simp [isAnyNotNL, hne], fun t1 s1 => by simp [exec, hne1]⟩
  rw [tjRegex]
  simp only [exec_byte_cons, if_true, exec_capOpen, exec_starLazy]
  rw [starLazy_skip _ _ X _ _ hskip, starLazy]
  simp only [exec_capClose, exec_byte_cons, if_true, exec_star]
  rw [starGreedy_run_some isSpace _ w (84 :: 106 :: rest) _
    ⟨t.pos + X.length + w.length + 4, t.pos + 1, t.pos + 1 + X.length⟩ hw]
  rw [starGreedy, if_neg (by decide)]
  simp [exec, Thread.advance]
  omega

theorem findAll_text_single (X w : List Nat) (h1 : 41 ∉ X) (h2 : 10 ∉ X)
    (hw : ∀ c ∈ w, isSpace c = true) :
    findAllSubmatchIndex textRegex (40 :: (X ++ 41 :: (w ++ [84, 106]))) =
      [⟨0, X.length + 2, 1, 1 + X.length⟩] := by
  have hex := exec_text_single X (w ++ [84, 106]) ⟨0, 0, 0⟩ h1 h2
  have hrest : 40 ∉ w ++ [84, 106] := by
    intro h
    rcases List.mem_append.mp h with h | h
    · exact absurd (hw 40 h) (by decide)
    · simp at h
  rw [findAllSubmatchIndex, findAllFrom_cons_some _ _ _ _ _ hex]
  have hsplit : X ++ 41 :: (w ++ [84, 106]) = (X ++ [41]) ++ (w ++ [84, 106]) := by simp
  have hlen : 0 + X.length + 2 - 0 - 1 = (X ++ [41]).length := by simp
  simp only
  rw [hsplit, hlen, findAllFrom_skip, textRegex, findAllFrom_first_byte 40 _ _ _ hrest]
  simp

theorem findAll_tj_single (X w : List Nat) (h1 : 41 ∉ X) (h2 : 10 ∉ X)
    (hw : ∀ c ∈ w, isSpace c = true) :
    findAllSubmatchIndex tjRegex (40 :: (X ++ 41 :: (w ++ [84, 106]))) =
      [⟨0, X.length + w.length + 4, 1, 1 + X.length⟩] := by
  have hex := exec_tj_single X w [] ⟨0, 0, 0⟩ h1 h2 hw
  have hnil : ∀ t, exec tjRegex t [] = none := fun t => rfl
  rw [findAllSubmatchIndex, findAllFrom_cons_some _ _ _ _ _ hex,
    findAllFrom_skip_all _ hnil _ _ _ (by simp; omega)]
  simp

theorem slice_literal (X rest : List Nat) : slice (40 :: (X ++ rest)) 1 (1 + X.length) = X := by
  have h := slice_mid [40] X rest
  simpa using h

theorem writeFragment_eq (text fragment : List Nat) :
    writeFragment text fragment = text ++ writeFragment [] fragment := by
  by_cases h : fragment = [] <;> simp [writeFragment, h]

/-- A loop that only appends to the builder can be run on an empty builder. -/
theorem foldl_append_builder {α : Type} (f : List Nat → α → List Nat)
    (hf : ∀ text m, f text m = text ++ f [] m) :
    ∀ (l : List α) (text : List Nat), l.foldl f text = text ++ l.foldl f [] := by
  intro l
  induction l with
  | nil => intro text; simp
  | cons m l ih =>
    intro text
    rw [List.foldl_cons, ih, List.foldl_cons, ih (f [] m), hf text m, List.append_assoc]

theorem hexPass_append (pr : PDFReader) (streamStr text : List Nat) :
    hexPass pr streamStr text = text ++ hexPass pr streamStr [] := by
  unfold hexPass
  apply foldl_append_builder
  intro text m
  split
  · exact writeFragment_eq _ _
  · simp

theorem tjPass_append (pr : PDFReader) (streamStr text : List Nat) :
    tjPass pr streamStr text = text ++ tjPass pr streamStr [] := by
  unfold tjPass
  apply foldl_append_builder
  intro text m
  split
  · exact writeFragment_eq _ _
  · simp

theorem literalPass_append (pr : PDFReader) (streamStr text : List Nat) :
    literalPass pr streamStr text = text ++ literalPass pr streamStr [] := by
  unfold literalPass
  apply foldl_append_builder
  intro text m
  split
  · exact writeFragment_eq _ _
  · simp

/-- The three passes write one after the other. -/
theorem extractTextFromStream_eq (pr : PDFReader) (stream : List Nat) :
    extractTextFromStream pr stream =
      literalPass pr stream [] ++ hexPass pr stream [] ++ tjPass pr stream [] := by
  simp only [extractTextFromStream]
  rw [tjPass_append, hexPass_append]

theorem hexPass_eq_nil_of_no_open (pr : PDFReader) (streamStr : List Nat) (h : 60 ∉ streamStr) :
    hexPass pr streamStr [] = [] := by
  simp [hexPass, findAllSubmatch, findAllSubmatchIndex, hexRegex,
    findAllFrom_first_byte 60 _ streamStr 0 h]

theorem literalPass_single (pr : PDFReader) (X w : List Nat) (h1 : 41 ∉ X) (h2 : 10 ∉ X)
    (hw : ∀ c ∈ w, isSpace c = true) (hne : cleanPDFText pr X ≠ []) :
    literalPass pr (40 :: (X ++ 41 :: (w ++ [84, 106]))) [] = cleanPDFText pr X ++ [32] := by
  simp only [literalPass, findAllSubmatch, findAll_text_single X w h1 h2 hw, List.map_cons,
    List.map_nil, List.foldl_cons, List.foldl_nil, slice_literal]
  simp [writeFragment, hne]

theorem tjPass_single (pr : PDFReader) (X w : List Nat) (h1 : 41 ∉ X) (h2 : 10 ∉ X)
    (hw : ∀ c ∈ w, isSpace c = true) (hne : cleanPDFText pr X ≠ []) :
    tjPass pr (40 :: (X ++ 41 :: (w ++ [84, 106]))) [] = cleanPDFText pr X ++ [32] := by
  simp only [tjPass, findAllSubmatch, findAll_tj_single X w h1 h2 hw, List.map_cons,
    List.map_nil, List.foldl_cons, List.foldl_nil, slice_literal]
  simp [writeFragment, hne]

/-- C10, as the code has it: on the payload `(`, `X`, `)`, white space `w`,
`Tj`, where `X` has no `)` and no newline and `cleanPDFText X` is not empty, the
literal-string pass and the text-show pass each write `cleanPDFText X` and a
space; the stream text is the first of these, then what the hex-string pass
finds in the payload, then the second; it is `cleanPDFText X`, space,
`cleanPDFText X`, space when `X` has no `<`.  For `X` = `Hello`, backslash, `n`,
`World` the decoded text is `Hello`, newline, `World`. -/
theorem literal_and_text_show_passes (pr : PDFReader) (X w : List Nat) (h1 : 41 ∉ X)
    (h2 : 10 ∉ X) (hw : ∀ c ∈ w, isSpace c = true) (hne : cleanPDFText pr X ≠ []) :
    literalPass pr (40 :: (X ++ 41 :: (w ++ [84, 106]))) [] = cleanPDFText pr X ++ [32] ∧
      tjPass pr (40 :: (X ++ 41 :: (w ++ [84, 106]))) [] = cleanPDFText pr X ++ [32] ∧
      extractTextFromStream pr (40 :: (X ++ 41 :: (w ++ [84, 106]))) =
        cleanPDFText pr X ++ [32] ++ hexPass pr (40 :: (X ++ 41 :: (w ++ [84, 106]))) [] ++
          (cleanPDFText pr X ++ [32]) ∧
      (60 ∉ X → extractTextFromStream pr (40 :: (X ++ 41 :: (w ++ [84, 106]))) =
        cleanPDFText pr X ++ [32] ++ (cleanPDFText pr X ++ [32])) ∧
      cleanPDFText pr (ascii "Hello\\nWorld") = ascii "Hello\nWorld" := by
  have hl := literalPass_single pr X w h1 h2 hw hne
  have ht := tjPass_single pr X w h1 h2 hw hne
  refine ⟨hl, ht, ?_, ?_, ?_⟩
  · rw [extractTextFromStream_eq, hl, ht]
  · intro h3
    have hno : 60 ∉ 40 :: (X ++ 41 :: (w ++ [84, 106])) := by
      intro h
      simp only [List.mem_cons, List.mem_append, List.mem_singleton] at h
      rcases h with h | h | h | h | h | h
      · omega
      · exact h3 h
      · omega
      · exact absurd (hw 60 h) (by decide)
      · omega
      · simp at h
    rw [extractTextFromStream_eq, hl, ht, hexPass_eq_nil_of_no_open pr _ hno, List.append_nil]
  · show cleanPDFText defaultReader (ascii "Hello\\nWorld") = ascii "Hello\nWorld"
    decide

theorem literal_and_text_show_passes_witness :
    literalPass defaultReader (40 :: (ascii "Hello\\nWorld" ++ 41 :: ([32] ++ [84, 106]))) [] =
        ascii "Hello\nWorld" ++ [32] ∧
      tjPass defaultReader (40 :: (ascii "Hello\\nWorld" ++ 41 :: ([32] ++ [84, 106]))) [] =
        ascii "Hello\nWorld" ++ [32] ∧
      extractTextFromStream defaultReader
          (40 :: (ascii "Hello\\nWorld" ++ 41 :: ([32] ++ [84, 106]))) =
        ascii "Hello\nWorld" ++ [32] ++ (ascii "Hello\nWorld" ++ [32]) := by
  have h := literal_and_text_show_passes defaultReader (ascii "Hello\\nWorld") [32]
    (by decide) (by decide) (by decide) (by decide)
  rw [h.2.2.2.2] at h
  exact ⟨h.1, h.2.1, h.2.2.2.1 (by decide)⟩

/-- C10 as stated fails: `X` = `<48>` has no parenthesis and no newline and
`cleanPDFText X` = `<48>`, but the stream text of `(<48>)Tj` has `H` and a
space between the two copies, written by the hex-string pass. -/
theorem stream_text_with_hex_inside :
    (40 ∉ ascii "<48>" ∧ 41 ∉ ascii "<48>" ∧ 10 ∉ ascii "<48>") ∧
      cleanPDFText defaultReader (ascii "<48>") = ascii "<48>" ∧
      extractTextFromStream defaultReader (40 :: (ascii "<48>" ++ 41 :: ([] ++ [84, 106]))) =
        ascii "<48> H <48> " ∧
      extractTextFromStream defaultReader (40 :: (ascii "<48>" ++ 41 :: ([] ++ [84, 106]))) ≠
        cleanPDFText defaultReader (ascii "<48>") ++ [32] ++
          (cleanPDFText defaultReader (ascii "<48>") ++ [32]) := by
  decide

/-! ## End to end -/

/-- C3, as the code has it: on `%PDF-1.4`, newline, `stream`, newline,
`(Report Title)Tj`, newline, `endstream`, when `zlib` rejects the payload,
`ReadPDFAsString` returns `Report Title Report Title` with a nil error: the
literal-string pass and the text-show pass each write the title once. -/
theorem report_title_document (pr : PDFReader) (z : Zlib)
    (hz : tryDecompress pr z (ascii "(Report Title)Tj") = none) :
    ReadPDFAsString pr z (ascii "%PDF-1.4\nstream\n(Report Title)Tj\nendstream") =
      (ascii "Report Title Report Title", none) := by
  have hstreams : findStreams pr z (ascii "%PDF-1.4\nstream\n(Report Title)Tj\nendstream") =
      [ascii "(Report Title)Tj"] := by
    rw [findStreams_eq_map,
      show findAllSubmatchIndex streamRegex (ascii "%PDF-1.4\nstream\n(Report Title)Tj\nendstream") =
        [⟨9, 42, 16, 32⟩] by decide]
    simp only [List.map_cons, List.map_nil]
    rw [show slice (ascii "%PDF-1.4\nstream\n(Report Title)Tj\nendstream") 16 32 =
      ascii "(Report Title)Tj" by decide]
    simp [streamRecord, hz]
  have htext : extractTextFromStream pr (ascii "(Report Title)Tj") =
      ascii "Report Title Report Title " := by
    show extractTextFromStream defaultReader (ascii "(Report Title)Tj") = _
    decide
  have hclean : cleanText pr ([] ++ ascii "Report Title Report Title " ++ [32]) =
      ascii "Report Title Report Title" := by
    show cleanText defaultReader _ = _
    decide
  have hsig : hasPrefixBytes (ascii "%PDF-1.4\nstream\n(Report Title)Tj\nendstream")
      (ascii "%PDF-") = true := by decide
  have hne : ascii "Report Title Report Title " ≠ [] := by decide
  simp only [ReadPDFAsString, hsig, extractTextFromPDF, hstreams, List.foldl_cons, List.foldl_nil,
    htext]
  rw [if_pos hne, hclean]
  simp

theorem report_title_document_witness :
    tryDecompress defaultReader rejectAll (ascii "(Report Title)Tj") = none ∧
      ReadPDFAsString defaultReader rejectAll
          (ascii "%PDF-1.4\nstream\n(Report Title)Tj\nendstream") =
        (ascii "Report Title Report Title", none) :=
  ⟨rfl, report_title_document defaultReader rejectAll rfl⟩

/-- C3 as stated fails: with a `zlib` that rejects the payload the result is
the title twice, not `Report Title`. -/
theorem report_title_twice :
    ReadPDFAsString defaultReader rejectAll (ascii "%PDF-1.4\nstream\n(Report Title)Tj\nendstream") =
        (ascii "Report Title Report Title", none) ∧
      ReadPDFAsString defaultReader rejectAll
          (ascii "%PDF-1.4\nstream\n(Report Title)Tj\nendstream") ≠
        (ascii "Report Title", none) := by
  decide

/-! ## Hexadecimal strings -/

theorem replaceAll_space (h : List Nat) : replaceAll h [32] [] = h.filter (fun c => c != 32) := by
  unfold replaceAll
  induction h with
  | nil => rfl
  | cons c h ih =>
    by_cases hc : c = 32
    · simp [replaceAllFrom, hasPrefixBytes, hc, ih]
    · simp [replaceAllFrom, hasPrefixBytes, hc, ih]

theorem hexDigit_of_isHexDigit (c : Nat) (h : isHexDigit c = true) :
    hexDigit c = some (digitValue c) ∧ digitValue c < 16 := by
  simp only [isHexDigit, Bool.or_eq_true, Bool.and_eq_true, decide_eq_true_eq] at h
  unfold hexDigit digitValue
  rcases h with (h | h) | h
  · rw [if_pos h, if_pos h.2]; exact ⟨rfl, by omega⟩
  · rw [if_neg (by omega), if_neg (by omega), if_pos h, if_neg (by omega), if_pos h.2]
    exact ⟨by congr 1; omega, by omega⟩
  · rw [if_neg (by omega), if_pos h, if_neg (by omega), if_neg (by omega)]
    exact ⟨by congr 1; omega, by omega⟩

theorem hexPairs_eq_pairValues :
    ∀ (n : Nat) (h : List Nat), h.length ≤ n → (∀ c ∈ h, isHexDigit c = true) →
      hexPairs h = (pairValues h).filter (fun v => decide (32 ≤ v ∧ v ≤ 126)) := by
  intro n
  induction n using Nat.strong_induction_on with
  | _ n ih =>
    intro h hlen hdig
    match h, hlen, hdig with
    | [], _, _ => rfl
    | [_], _, _ => rfl
    | a :: b :: s, hlen, hdig =>
      have ha := hexDigit_of_isHexDigit a (hdig a (by simp))
      have hb := hexDigit_of_isHexDigit b (hdig b (by simp))
      have hs := ih s.length (by simp at hlen; omega) s (le_refl _)
        (fun c hc => hdig c (by simp [hc]))
      simp only [hexPairs, pairValues, ha.1, hb.1, hs, List.filter_cons]
      by_cases hv : 32 ≤ 16 * digitValue a + digitValue b ∧ 16 * digitValue a + digitValue b ≤ 126
      · have hv2 : 32 ≤ 16 * digitValue a + digitValue b ∧ 16 * digitValue a + digitValue b < 127 :=
          ⟨hv.1, by omega⟩
        simp [hv, hv2]
      · have hv2 : ¬ (32 ≤ 16 * digitValue a + digitValue b ∧
            16 * digitValue a + digitValue b < 127) := fun h => hv ⟨h.1, by omega⟩
        simp [hv, hv2]

theorem filter_space_of_hex (h : List Nat) (hdig : ∀ c ∈ h, isHexDigit c = true) :
    h.filter (fun c => c != 32) = h := by
  rw [List.filter_eq_self]
  intro c hc
  have := hdig c hc
  simp only [isHexDigit, Bool.or_eq_true, Bool.and_eq_true, decide_eq_true_eq] at this
  simp only [bne_iff_ne, ne_eq]
  omega

theorem hexChar_spec (upper : Bool) (d : Nat) (hd : d < 16) :
    isHexDigit (hexChar upper d) = true ∧ digitValue (hexChar upper d) = d := by
  unfold hexChar
  by_cases h10 : d < 10
  · rw [if_pos h10]
    constructor
    · simp [isHexDigit]; omega
    · unfold digitValue; rw [if_pos (by omega)]; omega
  · rw [if_neg h10]
    cases upper
    · simp only [Bool.false_eq_true, if_false]
      constructor
      · simp [isHexDigit]; omega
      · unfold digitValue; rw [if_neg (by omega), if_neg (by omega)]; omega
    · simp only [if_true]
      constructor
      · simp [isHexDigit]; omega
      · unfold digitValue; rw [if_neg (by omega), if_pos (by omega)]; omega

theorem hexEncode_spec (upper : Bool) (s : List Nat) (hs : ∀ b ∈ s, b < 256) :
    (∀ c ∈ hexEncode upper s, isHexDigit c = true) ∧ (hexEncode upper s).length % 2 = 0 ∧
      pairValues (hexEncode upper s) = s := by
  induction s with
  | nil => simp [hexEncode, pairValues]
  | cons b s ih =>
    have hb : b < 256 := hs b (by simp)
    obtain ⟨h1, h2, h3⟩ := ih (fun x hx => hs x (by simp [hx]))
    have hhi := hexChar_spec upper (b / 16) (by omega)
    have hlo := hexChar_spec upper (b % 16) (by omega)
    have hcons : hexEncode upper (b :: s) =
        hexChar upper (b / 16) :: hexChar upper (b % 16) :: hexEncode upper s := by
      simp [hexEncode]
    rw [hcons]
    refine ⟨?_, ?_, ?_⟩
    · intro c hc
      rcases List.mem_cons.mp hc with rfl | hc
      · exact hhi.1
      · rcases List.mem_cons.mp hc with rfl | hc
        · exact hlo.1
        · exact h1 c hc
    · simp only [List.length_cons]; omega
    · simp only [pairValues, hhi.2, hlo.2, h3]
      congr 1
      omega

/-- C13: on an even-length string of hexadecimal digits, upper or lower case,
`hexToText` returns the values of the successive digit pairs that lie in
32..126, in order; so it returns `s` on the hexadecimal encoding, in either
case, of a string `s` of bytes in 32..126, and `48656C6C6F` gives `Hello`. -/
theorem hexToText_decodes_pairs (pr : PDFReader) :
    (∀ h : List Nat, (∀ c ∈ h, isHexDigit c = true) → h.length % 2 = 0 →
        hexToText pr h = (pairValues h).filter (fun v => decide (32 ≤ v ∧ v ≤ 126))) ∧
      (∀ (upper : Bool) (s : List Nat), (∀ b ∈ s, 32 ≤ b ∧ b ≤ 126) →
        hexToText pr (hexEncode upper s) = s) ∧
      hexToText pr (ascii "48656C6C6F") = ascii "Hello" := by
  have part1 : ∀ h : List Nat, (∀ c ∈ h, isHexDigit c = true) → h.length % 2 = 0 →
      hexToText pr h = (pairValues h).filter (fun v => decide (32 ≤ v ∧ v ≤ 126)) := by
    intro h hdig heven
    simp only [hexToText, replaceAll_space, filter_space_of_hex h hdig]
    rw [if_neg (by simp [heven])]
    exact hexPairs_eq_pairValues h.length h (le_refl _) hdig
  refine ⟨part1, ?_, ?_⟩
  · intro upper s hs
    obtain ⟨h1, h2, h3⟩ := hexEncode_spec upper s (fun b hb => by have := hs b hb; omega)
    rw [part1 _ h1 h2, h3, List.filter_eq_self]
    intro b hb
    simpa using hs b hb
  · show hexToText defaultReader (ascii "48656C6C6F") = ascii "Hello"
    decide

theorem hexToText_decodes_pairs_witness :
    hexToText defaultReader (ascii "7e4A20") = [126, 74, 32] ∧
      hexToText defaultReader (hexEncode false (ascii "Hi")) = ascii "Hi" := by
  have h := hexToText_decodes_pairs defaultReader
  refine ⟨?_, h.2.1 false (ascii "Hi") (by decide)⟩
  rw [h.1 (ascii "7e4A20") (by decide) (by decide)]
  decide

/-- The hex-string pattern on `<`, a non-empty run `h` of hexadecimal digits and
white space, `>`: the match is the whole input and group 1 is `h`. -/
theorem exec_hex_single (c : Nat) (h : List Nat) (t : Thread)
    (hcls : ∀ x ∈ c :: h, isHexOrSpace x = true) :
    exec hexRegex t (60 :: (c :: h ++ [62])) =
      some ⟨t.pos + h.length + 3, t.pos + 1, t.pos + 2 + h.length⟩ := by
  have hc : isHexOrSpace c = true := hcls c (by simp)
  have hh : ∀ x ∈ h, isHexOrSpace x = true := fun x hx => hcls x (by simp [hx])
  rw [hexRegex]
  simp only [List.cons_append, exec_byte_cons, if_true, exec_capOpen, exec_cls_cons, hc, exec_star]
  rw [starGreedy_run_some isHexOrSpace _ h [62] _
    ⟨t.pos + h.length + 3, t.pos + 1, t.pos + 2 + h.length⟩ hh]
  rw [starGreedy, if_neg (by decide)]
  simp [exec, Thread.advance]
  omega

theorem findAll_hex_single (h : List Nat) (hne : h ≠ [])
    (hcls : ∀ x ∈ h, isHexOrSpace x = true) :
    findAllSubmatchIndex hexRegex (60 :: (h ++ [62])) = [⟨0, h.length + 2, 1, 1 + h.length⟩] := by
  obtain ⟨c, h1, rfl⟩ := List.exists_cons_of_ne_nil hne
  have hex := exec_hex_single c h1 ⟨0, 0, 0⟩ hcls
  have hnil : ∀ t, exec hexRegex t [] = none := fun t => rfl
  rw [findAllSubmatchIndex, findAllFrom_cons_some _ _ _ _ _ hex,
    findAllFrom_skip_all _ hnil _ _ _ (by simp)]
  simp
  omega

theorem slice_after_head (a : Nat) (X rest : List Nat) :
    slice (a :: (X ++ rest)) 1 (1 + X.length) = X := by
  have h := slice_mid [a] X rest
  simpa using h

theorem literalPass_eq_nil_of_no_open (pr : PDFReader) (streamStr : List Nat)
    (h : 40 ∉ streamStr) : literalPass pr streamStr [] = [] := by
  simp [literalPass, findAllSubmatch, findAllSubmatchIndex, textRegex,
    findAllFrom_first_byte 40 _ streamStr 0 h]

theorem tjPass_eq_nil_of_no_open (pr : PDFReader) (streamStr : List Nat)
    (h : 40 ∉ streamStr) : tjPass pr streamStr [] = [] := by
  simp [tjPass, findAllSubmatch, findAllSubmatchIndex, tjRegex,
    findAllFrom_first_byte 40 _ streamStr 0 h]

/-- When the content `h` of a hex string has odd length once its space bytes
are removed, `hexToText` returns the empty string and the loop writes nothing,
neither a pair nor a separator; the stream `<`, `h`, `>` then has the empty
text. -/
theorem hexToText_odd_after_spaces (pr : PDFReader) (h : List Nat)
    (hcls : ∀ x ∈ h, isHexOrSpace x = true) (hodd : (replaceAll h [32] []).length % 2 = 1) :
    hexToText pr h = [] ∧ (∀ text, writeFragment text (hexToText pr h) = text) ∧
      findAllSubmatch hexRegex (60 :: (h ++ [62])) = [[60 :: (h ++ [62]), h]] ∧
      hexPass pr (60 :: (h ++ [62])) [] = [] ∧
      extractTextFromStream pr (60 :: (h ++ [62])) = [] := by
  have hne : h ≠ [] := by
    rintro rfl
    simp [replaceAll, replaceAllFrom] at hodd
  have h0 : hexToText pr h = [] := by
    simp only [hexToText]
    rw [if_pos (by omega)]
  have hall := findAll_hex_single h hne hcls
  have hsub : findAllSubmatch hexRegex (60 :: (h ++ [62])) = [[60 :: (h ++ [62]), h]] := by
    simp only [findAllSubmatch, hall, List.map_cons, List.map_nil, slice_after_head]
    have hw : slice (60 :: (h ++ [62])) 0 (h.length + 2) = 60 :: (h ++ [62]) := by
      simp [slice]
    rw [hw]
  have hhex : hexPass pr (60 :: (h ++ [62])) [] = [] := by
    simp [hexPass, hsub, h0, writeFragment]
  have hno : 40 ∉ 60 :: (h ++ [62]) := by
    intro hm
    simp only [List.mem_cons, List.mem_append, List.mem_singleton] at hm
    rcases hm with hm | hm | hm | hm
    · omega
    · exact absurd (hcls 40 hm) (by decide)
    · omega
    · simp at hm
  refine ⟨h0, fun text => by simp [writeFragment, h0], hsub, hhex, ?_⟩
  rw [extractTextFromStream_eq, literalPass_eq_nil_of_no_open pr _ hno, hhex,
    tjPass_eq_nil_of_no_open pr _ hno]
  rfl

theorem filter_white_space_of_hex_and_spaces (h : List Nat)
    (hcls : ∀ x ∈ h, isHexDigit x = true ∨ x = 32) :
    h.filter (fun c => !isSpace c) = h.filter (fun c => c != 32) := by
  apply List.filter_congr
  intro x hx
  rcases hcls x hx with hd | rfl
  · simp only [isHexDigit, Bool.or_eq_true, Bool.and_eq_true, decide_eq_true_eq] at hd
    rw [Bool.eq_iff_iff]
    simp only [isSpace, Bool.not_eq_true', Bool.or_eq_false_iff, beq_eq_false_iff_ne, ne_eq,
      bne_iff_ne]
    omega
  · decide

/-- C14: the content `41`, tab, `4` of a hex string has three digits once its
white space is stripped, an odd number, yet `hexToText` returns `A` and the
stream `<41`, tab, `4>` has the text `A` and a space: only space bytes are
removed, the tab stays, the length 4 is even and the pair `41` is decoded.
When the content has hex digits and space bytes only and an odd number of
digits, `hexToText` returns the empty string and the stream has the empty text,
as for `<6>` and `<48656>`. -/
theorem odd_hex_with_tab (pr : PDFReader) :
    (ascii "41\t4").filter (fun c => !isSpace c) = ascii "414" ∧
      hexToText pr (ascii "41\t4") = ascii "A" ∧
      findAllSubmatch hexRegex (ascii "<41\t4>") = [[ascii "<41\t4>", ascii "41\t4"]] ∧
      extractTextFromStream pr (ascii "<41\t4>") = ascii "A " ∧
      (∀ h : List Nat, (∀ x ∈ h, isHexDigit x = true ∨ x = 32) →
        (h.filter (fun c => !isSpace c)).length % 2 = 1 →
        hexToText pr h = [] ∧ extractTextFromStream pr (60 :: (h ++ [62])) = []) ∧
      extractTextFromStream pr (ascii "<6>") = [] ∧
      extractTextFromStream pr (ascii "<48656>") = [] := by
  refine ⟨by decide, ?_, by decide, ?_, ?_, ?_, ?_⟩
  · show hexToText defaultReader (ascii "41\t4") = ascii "A"
    decide
  · show extractTextFromStream defaultReader (ascii "<41\t4>") = ascii "A "
    decide
  · intro h hcls hodd
    have hcls2 : ∀ x ∈ h, isHexOrSpace x = true := by
      intro x hx
      rcases hcls x hx with hd | rfl
      · simp only [isHexDigit] at hd
        simp only [isHexOrSpace, hd, Bool.true_or]
      · decide
    have hodd2 : (replaceAll h [32] []).length % 2 = 1 := by
      rw [replaceAll_space, ← filter_white_space_of_hex_and_spaces h hcls]
      exact hodd
    have hh := hexToText_odd_after_spaces pr h hcls2 hodd2
    exact ⟨hh.1, hh.2.2.2.2⟩
  · show extractTextFromStream defaultReader (ascii "<6>") = []
    decide
  · show extractTextFromStream defaultReader (ascii "<48656>") = []
    decide

/-- C15: `hexToText` removes the space character only.  Its result is that of
the string without its spaces, so `48`, space, `65` gives `He`; a tab stays, so
`48`, tab, `65` has five bytes and gives the empty string, and the stream
`<48`, tab, `65>` has the empty text. -/
theorem hexToText_strips_spaces_only (pr : PDFReader) :
    (∀ h : List Nat, hexToText pr h = hexToText pr (h.filter (fun c => c != 32))) ∧
      hexToText pr (ascii "48 65") = ascii "He" ∧
      hexToText pr (ascii "4865") = ascii "He" ∧
      hexToText pr (ascii "48\t65") = [] ∧
      extractTextFromStream pr (ascii "<48\t65>") = [] := by
  refine ⟨?_, ?_, ?_, ?_, ?_⟩
  · intro h
    simp only [hexToText, replaceAll_space, List.filter_filter, Bool.and_self]
  · show hexToText defaultReader (ascii "48 65") = ascii "He"
    decide
  · show hexToText defaultReader (ascii "4865") = ascii "He"
    decide
  · show hexToText defaultReader (ascii "48\t65") = []
    decide
  · show extractTextFromStream defaultReader (ascii "<48\t65>") = []
    decide

/-! ## Literal strings and parentheses -/

/-- C11: on the payload `(a`, backslash, `)b)` the literal-string pass stops at
the first `)`: it writes `a`, backslash and a space, not `a)b`.  The decoder
does turn backslash, `)` into `)`, and the text-show pass gives `a)b` when `Tj`
follows. -/
theorem literalPass_escaped_paren (pr : PDFReader) :
    literalPass pr (ascii "(a\\)b)") [] = ascii "a\\ " ∧
      findAllSubmatch textRegex (ascii "(a\\)b)") = [[ascii "(a\\)", ascii "a\\"]] ∧
      cleanPDFText pr (ascii "a\\)b") = ascii "a)b" ∧
      tjPass pr (ascii "(a\\)b)Tj") [] = ascii "a)b " := by
  refine ⟨?_, by decide, ?_, ?_⟩
  · show literalPass defaultReader (ascii "(a\\)b)") [] = ascii "a\\ "
    decide
  · show cleanPDFText defaultReader (ascii "a\\)b") = ascii "a)b"
    decide
  · show tjPass defaultReader (ascii "(a\\)b)Tj") [] = ascii "a)b "
    decide

/-- C12: on the payload `(a)(b)Tj` the text-show pass writes `a)(b` and a
space: its match starts at the first `(` and runs on to the `)` before `Tj`.
The literal-string pass finds the two strings `a` and `b` there. -/
theorem tjPass_spans_literals (pr : PDFReader) :
    tjPass pr (ascii "(a)(b)Tj") [] = ascii "a)(b " ∧
      findAllSubmatch tjRegex (ascii "(a)(b)Tj") = [[ascii "(a)(b)Tj", ascii "a)(b"]] ∧
      findAllSubmatch textRegex (ascii "(a)(b)Tj") =
        [[ascii "(a)", ascii "a"], [ascii "(b)", ascii "b"]] := by
  refine ⟨?_, by decide, by decide⟩
  show tjPass defaultReader (ascii "(a)(b)Tj") [] = ascii "a)(b "
  decide

/-! ## Normalisation -/

/-- C19: `cleanText` of `a`, three newlines, `b` is `a`, space, `b`: the first
substitution turns the run of newlines into one space, and the second
substitution finds no newline. -/
theorem cleanText_blank_line (pr : PDFReader) :
    cleanText pr (ascii "a\n\n\nb") = ascii "a b" ∧
      replaceAllString spaceRegex (ascii "a\n\n\nb") [32] = ascii "a b" ∧
      replaceAllString newlineRegex (ascii "a\n\n\nb") [10, 10] = ascii "a\n\nb" := by
  refine ⟨?_, by decide, by decide⟩
  show cleanText defaultReader (ascii "a\n\n\nb") = ascii "a b"
  decide

/-! ## Escape decoding -/

theorem cleanPDFText_eq (pr : PDFReader) (text : List Nat) :
    cleanPDFText pr text = (unescape text).filter keepRune := rfl

theorem replaceAll_pair_match (a b y : Nat) (s : List Nat) :
    replaceAll (a :: b :: s) [a, b] [y] = y :: replaceAll s [a, b] [y] := by
  simp [replaceAll, replaceAllFrom, hasPrefixBytes]

theorem replaceAll_pair_second (a b y d : Nat) (s : List Nat) (hd : d ≠ b) :
    replaceAll (a :: d :: s) [a, b] [y] = a :: replaceAll (d :: s) [a, b] [y] := by
  simp [replaceAll, replaceAllFrom, hasPrefixBytes, hd]

theorem replaceAll_pair_single (a b y c : Nat) : replaceAll [c] [a, b] [y] = [c] := by
  simp [replaceAll, replaceAllFrom, hasPrefixBytes]

theorem replaceAll_pair_nil (a b y : Nat) : replaceAll [] [a, b] [y] = [] := rfl

theorem unescape_nil : unescape [] = [] := rfl

theorem replaceAll_backslashes_other (b y : Nat) (hb : b ≠ 92) :
    ∀ n : Nat, replaceAll (List.replicate n 92) [92, b] [y] = List.replicate n 92 := by
  intro n
  induction n with
  | zero => rfl
  | succ n ih =>
    cases n with
    | zero => exact replaceAll_pair_single 92 b y 92
    | succ m =>
      rw [List.replicate_succ, List.replicate_succ,
        replaceAll_pair_second 92 b y 92 _ (fun e => hb e.symm), ← List.replicate_succ, ih]

theorem replaceAll_backslashes_pair :
    ∀ k : Nat, replaceAll (List.replicate (2 * k) 92) [92, 92] [92] = List.replicate k 92 := by
  intro k
  induction k with
  | zero => rfl
  | succ k ih =>
    rw [show 2 * (k + 1) = 2 * k + 1 + 1 by omega, List.replicate_succ, List.replicate_succ,
      replaceAll_pair_match, ih, List.replicate_succ]

/-- C16: `cleanPDFText` turns backslash, `n` into one newline and two
backslashes into one backslash; it does not decode its output again: four
backslashes give two, and a run of 2k backslashes gives k. -/
theorem cleanPDFText_simple_escapes (pr : PDFReader) :
    cleanPDFText pr [92, 110] = [10] ∧ cleanPDFText pr [92, 92] = [92] ∧
      cleanPDFText pr [92, 92, 92, 92] = [92, 92] ∧
      ∀ k : Nat, cleanPDFText pr (List.replicate (2 * k) 92) = List.replicate k 92 := by
  refine ⟨?_, ?_, ?_, ?_⟩
  · show cleanPDFText defaultReader [92, 110] = [10]
    decide
  · show cleanPDFText defaultReader [92, 92] = [92]
    decide
  · show cleanPDFText defaultReader [92, 92, 92, 92] = [92, 92]
    decide
  · intro k
    rw [cleanPDFText_eq]
    simp only [unescape]
    rw [replaceAll_backslashes_other 110 10 (by decide), replaceAll_backslashes_other 114 13
      (by decide), replaceAll_backslashes_other 116 9 (by decide),
      replaceAll_backslashes_other 40 40 (by decide), replaceAll_backslashes_other 41 41
      (by decide), replaceAll_backslashes_pair, List.filter_eq_self]
    intro a ha
    rw [List.eq_of_mem_replicate ha]
    decide

theorem starGreedy_exec_nil (p : Nat → Bool) :
    ∀ (s : List Nat) (t : Thread),
      starGreedy p (exec []) t s =
        some ⟨t.pos + (s.takeWhile p).length, t.capStart, t.capEnd⟩ := by
  intro s
  induction s with
  | nil => intro t; simp [starGreedy, exec]
  | cons c s ih =>
    intro t
    by_cases hp : p c = true
    · rw [starGreedy, if_pos hp, ih, List.takeWhile_cons, if_pos hp]
      simp only [Thread.advance, List.length_cons]
      rw [show t.pos + 1 + (List.takeWhile p s).length = t.pos + ((List.takeWhile p s).length + 1)
        by omega]
    · rw [starGreedy, if_neg hp, List.takeWhile_cons, if_neg hp]
      simp [exec]

theorem exec_spaceRegex_cons (pos c : Nat) (s : List Nat) :
    exec spaceRegex ⟨pos, 0, 0⟩ (c :: s) =
      if isSpace c then some ⟨pos + 1 + (s.takeWhile isSpace).length, 0, 0⟩ else none := by
  rw [spaceRegex, exec_cls_cons, exec_star, starGreedy_exec_nil]
  rfl

/-- The first substitution of `cleanText` is the collapse of white-space runs. -/
theorem regexReplace_space :
    ∀ (s : List Nat) (pos : Nat),
      regexReplaceFrom spaceRegex [32] 0 pos s = collapseFrom false s ∧
        regexReplaceFrom spaceRegex [32] (s.takeWhile isSpace).length pos s =
          collapseFrom true s := by
  intro s
  induction s with
  | nil => intro pos; exact ⟨rfl, rfl⟩
  | cons c s ih =>
    intro pos
    have hB : regexReplaceFrom spaceRegex [32] 0 pos (c :: s) = collapseFrom false (c :: s) := by
      by_cases hc : isSpace c = true
      · simp only [regexReplaceFrom, exec_spaceRegex_cons, hc, if_true, collapseFrom]
        rw [show pos + 1 + (List.takeWhile isSpace s).length - pos - 1 =
          (List.takeWhile isSpace s).length by omega, (ih (pos + 1)).2]
        simp
      · simp only [regexReplaceFrom, exec_spaceRegex_cons, hc, collapseFrom]
        rw [(ih (pos + 1)).1]
        simp
    refine ⟨hB, ?_⟩
    by_cases hc : isSpace c = true
    · rw [List.takeWhile_cons, if_pos hc, List.length_cons, regexReplaceFrom, (ih (pos + 1)).2]
      simp [collapseFrom, hc]
    · rw [List.takeWhile_cons, if_neg hc, List.length_nil, hB]
      simp [collapseFrom, hc]

theorem replaceAllString_space (s : List Nat) :
    replaceAllString spaceRegex s [32] = collapseFrom false s :=
  (regexReplace_space s 0).1

theorem singleSpaced_collapse : ∀ (s : List Nat) (b : Bool), SingleSpaced b (collapseFrom b s) := by
  intro s
  induction s with
  | nil => intro b; simp [collapseFrom, SingleSpaced]
  | cons c s ih =>
    intro b
    by_cases hc : isSpace c = true
    · cases b
      · simp only [collapseFrom, hc, if_true, Bool.false_eq_true, if_false, SingleSpaced]
        rw [if_pos (by decide)]
        exact ⟨by trivial, by trivial, ih true⟩
      · simp only [collapseFrom, hc, if_true]
        exact ih true
    · simp only [collapseFrom, hc, SingleSpaced]
      exact ih false

theorem collapse_of_singleSpaced :
    ∀ (l : List Nat) (b : Bool), SingleSpaced b l → collapseFrom b l = l := by
  intro l
  induction l with
  | nil => intro b _; rfl
  | cons c l ih =>
    intro b h
    by_cases hc : isSpace c = true
    · simp only [SingleSpaced, hc, if_true] at h
      obtain ⟨h1, h2, h3⟩ := h
      subst h1 h2
      simp only [collapseFrom, hc, if_true, Bool.false_eq_true, if_false, ih true h3]
    · simp only [SingleSpaced, hc] at h
      simp only [collapseFrom, hc, ih false h]
      simp

theorem singleSpaced_weaken : ∀ (l : List Nat) (b : Bool), SingleSpaced b l → SingleSpaced false l := by
  intro l b h
  cases b
  · exact h
  · cases l with
    | nil => trivial
    | cons c l =>
      by_cases hc : isSpace c = true
      · simp [SingleSpaced, hc] at h
      · simpa [SingleSpaced, hc] using h

theorem singleSpaced_suffix :
    ∀ (a l : List Nat) (b : Bool), SingleSpaced b (a ++ l) → SingleSpaced false l := by
  intro a
  induction a with
  | nil => intro l b h; exact singleSpaced_weaken l b h
  | cons c a ih =>
    intro l b h
    by_cases hc : isSpace c = true
    · simp only [List.cons_append, SingleSpaced, hc, if_true] at h
      exact ih l true h.2.2
    · simp only [List.cons_append, SingleSpaced, hc] at h
      exact ih l false h

theorem singleSpaced_prefix :
    ∀ (l x : List Nat) (b : Bool), SingleSpaced b (l ++ x) → SingleSpaced b l := by
  intro l
  induction l with
  | nil => intro x b _; trivial
  | cons c l ih =>
    intro x b h
    by_cases hc : isSpace c = true
    · simp only [List.cons_append, SingleSpaced, hc, if_true] at h ⊢
      exact ⟨h.1, h.2.1, ih x true h.2.2⟩
    · simp only [List.cons_append, SingleSpaced, hc] at h ⊢
      exact ih x false h

theorem newline_not_mem_collapse : ∀ (s : List Nat) (b : Bool), 10 ∉ collapseFrom b s := by
  intro s
  induction s with
  | nil => intro b; simp [collapseFrom]
  | cons c s ih =>
    intro b
    by_cases hc : isSpace c = true
    · cases b
      · simp only [collapseFrom, hc, if_true, Bool.false_eq_true, if_false, List.mem_cons]
        rintro (h | h)
        · omega
        · exact ih true h
      · simp only [collapseFrom, hc, if_true]
        exact ih true
    · simp only [collapseFrom, hc, Bool.false_eq_true, if_false, List.mem_cons]
      rintro (h | h)
      · subst h
        exact hc (by decide)
      · exact ih false h

/-- A substitution whose pattern starts with a byte absent from the input
changes nothing. -/
theorem regexReplace_first_byte (b : Nat) (re : List Inst) (repl : List Nat) :
    ∀ (s : List Nat) (pos : Nat), b ∉ s →
      regexReplaceFrom (.byte b :: re) repl 0 pos s = s := by
  intro s
  induction s with
  | nil => intro pos _; simp [regexReplaceFrom, exec]
  | cons c s ih =>
    intro pos h
    have hc : c ≠ b := fun e => h (by simp [e])
    have hs : b ∉ s := fun e => h (List.mem_cons_of_mem _ e)
    simp [regexReplaceFrom, exec, hc, ih _ hs]

theorem dropRunes_suffix (len : List Nat → Nat) :
    ∀ (fuel : Nat) (s : List Nat), dropRunes len fuel s <:+ s := by
  intro fuel
  induction fuel with
  | zero => intro s; exact List.suffix_refl s
  | succ n ih =>
    intro s
    rw [dropRunes]
    split_ifs
    · exact List.suffix_refl s
    · exact (ih _).trans (List.drop_suffix _ _)

theorem dropRunes_of_zero (len : List Nat → Nat) (fuel : Nat) (s : List Nat) (h : len s = 0) :
    dropRunes len fuel s = s := by
  cases fuel with
  | zero => rfl
  | succ n => rw [dropRunes, if_pos h]

/-- With fuel for every byte, the loop stops at a string with no rune to drop. -/
theorem dropRunes_done (len : List Nat → Nat) (hnil : len [] = 0) :
    ∀ (fuel : Nat) (s : List Nat), s.length ≤ fuel → len (dropRunes len fuel s) = 0 := by
  intro fuel
  induction fuel with
  | zero =>
    intro s hs
    have : s = [] := List.length_eq_zero.mp (by omega)
    subst this
    exact hnil
  | succ n ih =>
    intro s hs
    rw [dropRunes]
    by_cases h : len s = 0
    · rw [if_pos h]; exact h
    · rw [if_neg h]
      apply ih
      rw [List.length_drop]
      omega

theorem spaceRuneLen_prefix (p x : List Nat) (h : spaceRuneLen (p ++ x) = 0) :
    spaceRuneLen p = 0 := by
  match p, h with
  | [], _ => rfl
  | [a], h =>
    by_cases ha : isAsciiSpace a = true
    · cases x <;> simp [spaceRuneLen, ha] at h
    · simp [spaceRuneLen, ha]
  | [a, b], h =>
    by_cases ha : isAsciiSpace a = true
    · cases x <;> simp [spaceRuneLen, ha] at h
    · cases x with
      | nil => simpa using h
      | cons c x =>
        simp only [List.cons_append, List.nil_append, spaceRuneLen, ha, Bool.false_eq_true,
          if_false] at h ⊢
        split_ifs at h with h1
        rw [if_neg h1]
  | a :: b :: c :: p, h =>
    simpa [spaceRuneLen] using h

theorem spaceRuneLenRev_prefix (p x : List Nat) (h : spaceRuneLenRev (p ++ x) = 0) :
    spaceRuneLenRev p = 0 := by
  match p, h with
  | [], _ => rfl
  | [a], h =>
    by_cases ha : isAsciiSpace a = true
    · cases x <;> simp [spaceRuneLenRev, ha] at h
    · simp [spaceRuneLenRev, ha]
  | [a, b], h =>
    by_cases ha : isAsciiSpace a = true
    · cases x <;> simp [spaceRuneLenRev, ha] at h
    · cases x with
      | nil => simpa using h
      | cons c x =>
        simp only [List.cons_append, List.nil_append, spaceRuneLenRev, ha, Bool.false_eq_true,
          if_false] at h ⊢
        split_ifs at h with h1
        rw [if_neg h1]
  | a :: b :: c :: p, h =>
    simpa [spaceRuneLenRev] using h

/-- Trimming at the right a string with no white space at its left. -/
theorem trimRight_spec (l : List Nat) (hl : spaceRuneLen l = 0) :
    (∃ x, l = (dropRunes spaceRuneLenRev l.length l.reverse).reverse ++ x) ∧
      spaceRuneLen (dropRunes spaceRuneLenRev l.length l.reverse).reverse = 0 ∧
      spaceRuneLenRev (dropRunes spaceRuneLenRev l.length l.reverse) = 0 ∧
      trimSpace (dropRunes spaceRuneLenRev l.length l.reverse).reverse =
        (dropRunes spaceRuneLenRev l.length l.reverse).reverse := by
  have hr0 : spaceRuneLenRev (dropRunes spaceRuneLenRev l.length l.reverse) = 0 :=
    dropRunes_done spaceRuneLenRev rfl _ _ (by simp)
  obtain ⟨y, hy⟩ := dropRunes_suffix spaceRuneLenRev l.length l.reverse
  generalize dropRunes spaceRuneLenRev l.length l.reverse = rr at hr0 hy
  have hl2 : l = rr.reverse ++ y.reverse := by
    rw [← List.reverse_append, hy, List.reverse_reverse]
  have hrr : spaceRuneLen rr.reverse = 0 := by
    rw [hl2] at hl
    exact spaceRuneLen_prefix _ _ hl
  refine ⟨⟨y.reverse, hl2⟩, hrr, hr0, ?_⟩
  simp only [trimSpace]
  rw [dropRunes_of_zero _ _ _ hrr, List.reverse_reverse, dropRunes_of_zero _ _ _ hr0]

/-- What `strings.TrimSpace` returns lies inside its argument, has no white
space at either end, and is left unchanged by a second call. -/
theorem trimSpace_spec (s : List Nat) :
    (∃ a x, s = a ++ (trimSpace s ++ x)) ∧ spaceRuneLen (trimSpace s) = 0 ∧
      spaceRuneLenRev (trimSpace s).reverse = 0 ∧ trimSpace (trimSpace s) = trimSpace s := by
  have hl0 : spaceRuneLen (dropRunes spaceRuneLen s.length s) = 0 :=
    dropRunes_done spaceRuneLen rfl _ _ (le_refl _)
  obtain ⟨a, ha⟩ := dropRunes_suffix spaceRuneLen s.length s
  obtain ⟨⟨x, hx⟩, h1, h2, h3⟩ := trimRight_spec _ hl0
  have ht : trimSpace s =
      (dropRunes spaceRuneLenRev (dropRunes spaceRuneLen s.length s).length
        (dropRunes spaceRuneLen s.length s).reverse).reverse := rfl
  rw [ht]
  refine ⟨⟨a, x, ?_⟩, h1, by simpa using h2, h3⟩
  rw [← hx, ha]

/-- After the first substitution no newline is left, so the second one finds
nothing: `cleanText` is the collapse of white-space runs followed by the trim. -/
theorem cleanText_eq (pr : PDFReader) (s : List Nat) :
    cleanText pr s = trimSpace (collapseFrom false s) := by
  simp only [cleanText, replaceAllString_space]
  rw [replaceAllString, newlineRegex,
    regexReplace_first_byte 10 _ _ _ 0 (newline_not_mem_collapse s false)]

/-- C20: `cleanText` applied twice gives what it gives applied once. -/
theorem cleanText_idempotent (pr : PDFReader) (s : List Nat) :
    cleanText pr (cleanText pr s) = cleanText pr s := by
  rw [cleanText_eq pr s, cleanText_eq]
  obtain ⟨⟨a, x, hax⟩, -, -, hidem⟩ := trimSpace_spec (collapseFrom false s)
  have hss : SingleSpaced false (collapseFrom false s) := singleSpaced_collapse s false
  rw [hax] at hss
  have hmid : SingleSpaced false (trimSpace (collapseFrom false s)) :=
    singleSpaced_prefix _ x false (singleSpaced_suffix a _ false hss)
  rw [collapse_of_singleSpaced _ false hmid, hidem]

/-- C29: after the first substitution of `cleanText` no newline is left, so the
second substitution returns its argument: `cleanText` is `strings.TrimSpace` of
the text with every white-space run replaced by one space. -/
theorem cleanText_second_substitution (pr : PDFReader) (s : List Nat) :
    10 ∉ replaceAllString spaceRegex s [32] ∧
      replaceAllString newlineRegex (replaceAllString spaceRegex s [32]) [10, 10] =
        replaceAllString spaceRegex s [32] ∧
      replaceAllString spaceRegex s [32] = collapseFrom false s ∧
      cleanText pr s = trimSpace (replaceAllString spaceRegex s [32]) := by
  have hno : 10 ∉ replaceAllString spaceRegex s [32] := by
    rw [replaceAllString_space]
    exact newline_not_mem_collapse s false
  have hsecond : replaceAllString newlineRegex (replaceAllString spaceRegex s [32]) [10, 10] =
      replaceAllString spaceRegex s [32] := by
    rw [replaceAllString, newlineRegex]
    exact regexReplace_first_byte 10 _ _ _ 0 hno
  refine ⟨hno, hsecond, replaceAllString_space s, ?_⟩
  simp only [cleanText, hsecond]

/-! ## The opening marker inside `endstream` -/

theorem exec_streamRegex_head (c : Nat) (s : List Nat) (t : Thread) (hc : c ≠ 115) :
    exec streamRegex t (c :: s) = none := by
  rw [streamRegex_eq, exec_byte_cons, if_neg hc]

theorem findAll_stream_after_end (P : List Nat) (hP : 10 ∉ P) :
    findAllSubmatchIndex streamRegex
        (ascii "endstream" ++ 10 :: P ++ 10 :: ascii "endstream") =
      [⟨3, 20 + P.length, 10, 10 + P.length⟩] := by
  have hex := exec_stream_single P ⟨3, 0, 0⟩ hP
  have hnil : ∀ t, exec streamRegex t [] = none := fun t => rfl
  have hbuf : ascii "endstream" ++ 10 :: P ++ 10 :: ascii "endstream" =
      101 :: 110 :: 100 :: (ascii "stream" ++ 10 :: P ++ 10 :: ascii "endstream") := rfl
  rw [hbuf]
  rw [ascii_stream] at hex ⊢
  simp only [List.cons_append, List.nil_append] at hex ⊢
  rw [findAllSubmatchIndex,
    findAllFrom_cons_none _ _ _ _ (exec_streamRegex_head 101 _ _ (by decide)),
    findAllFrom_cons_none _ _ _ _ (exec_streamRegex_head 110 _ _ (by decide)),
    findAllFrom_cons_none _ _ _ _ (exec_streamRegex_head 100 _ _ (by decide))]
  show findAllFrom streamRegex 0 3 _ = _
  rw [findAllFrom_cons_some _ _ _ _ _ hex,
    findAllFrom_skip_all _ hnil _ _ _ (by simp [ascii_endstream]; omega)]

/-- Every `stream` of the buffer `endstream`, newline, `(X)Tj`, newline,
`endstream` is the end of an `endstream`. -/
theorem no_standalone_stream_marker (a b : List Nat)
    (h : ascii "endstream\n(X)Tj\nendstream" = a ++ ascii "stream" ++ b) :
    ascii "end" <:+ a := by
  have hlen : a.length + 6 + b.length = 25 := by
    have := congrArg List.length h
    simp [ascii] at this
    omega
  have hdec : ∀ i : Fin 20,
      ((ascii "endstream\n(X)Tj\nendstream").drop i.val).take 6 = ascii "stream" →
        3 ≤ i.val ∧ ((ascii "endstream\n(X)Tj\nendstream").take i.val).drop (i.val - 3) =
          ascii "end" := by
    decide
  have hi := hdec ⟨a.length, by omega⟩ (by
    rw [h]
    simp [ascii_stream])
  have ha : (ascii "endstream\n(X)Tj\nendstream").take a.length = a := by
    rw [h]
    simp
  rw [ha] at hi
  exact ⟨a.take (a.length - 3), by rw [← hi.2]; exact List.take_append_drop _ _⟩

/-- C30: the `stream` that ends an `endstream` marker opens a region.  For a
payload `P` without newline the buffer `endstream`, newline, `P`, newline,
`endstream` has one stream, whose raw payload is `P`; for `P` = `(X)Tj` every
`stream` of that buffer is the end of an `endstream`. -/
theorem stream_suffix_opens_region (pr : PDFReader) (z : Zlib) (P : List Nat) (hP : 10 ∉ P) :
    findStreams pr z (ascii "endstream" ++ 10 :: P ++ 10 :: ascii "endstream") =
        [streamRecord pr z P] ∧
      findStreams pr z (ascii "endstream\n(X)Tj\nendstream") =
        [streamRecord pr z (ascii "(X)Tj")] ∧
      ∀ a b, ascii "endstream\n(X)Tj\nendstream" = a ++ ascii "stream" ++ b →
        ascii "end" <:+ a := by
  have hgen : ∀ Q : List Nat, 10 ∉ Q →
      findStreams pr z (ascii "endstream" ++ 10 :: Q ++ 10 :: ascii "endstream") =
        [streamRecord pr z Q] := by
    intro Q hQ
    rw [findStreams_eq_map, findAll_stream_after_end Q hQ]
    have h := slice_mid (ascii "endstream" ++ [10]) Q (10 :: ascii "endstream")
    simp only [List.append_assoc, List.singleton_append, List.length_append,
      List.length_singleton] at h
    have h9 : (ascii "endstream").length = 9 := by decide
    rw [h9] at h
    simp only [List.map_cons, List.map_nil, List.append_assoc]
    rw [show (10 : Nat) = 9 + 1 from rfl, h]
  refine ⟨hgen P hP, ?_, no_standalone_stream_marker⟩
  have hbuf : ascii "endstream\n(X)Tj\nendstream" =
      ascii "endstream" ++ 10 :: ascii "(X)Tj" ++ 10 :: ascii "endstream" := by decide
  rw [hbuf]
  exact hgen _ (by decide)

theorem stream_suffix_opens_region_witness :
    findStreams defaultReader rejectAll (ascii "endstream\n(X)Tj\nendstream") = [ascii "(X)Tj"] := by
  have h := (stream_suffix_opens_region defaultReader rejectAll (ascii "(X)Tj") (by decide)).2.1
  rw [h]
  decide

/-! ## What the payload group captures -/

/-- A run of a pattern that starts with literal bytes reads those bytes and
leaves the capture bounds as they were. -/
theorem exec_bytes :
    ∀ (bs : List Nat) (re : List Inst) (t : Thread) (s : List Nat) (r : Thread),
      exec (bs.map Inst.byte ++ re) t s = some r →
      ∃ s1, s = bs ++ s1 ∧ exec re ⟨t.pos + bs.length, t.capStart, t.capEnd⟩ s1 = some r := by
  intro bs
  induction bs with
  | nil => intro re t s r h; exact ⟨s, rfl, by simpa using h⟩
  | cons b bs ih =>
    intro re t s r h
    cases s with
    | nil => simp [exec] at h
    | cons c s =>
      rw [List.map_cons, List.cons_append, exec_byte_cons] at h
      by_cases hc : c = b
      · rw [if_pos hc] at h
        obtain ⟨s1, hs, hex⟩ := ih re _ s r h
        refine ⟨s1, by rw [hs, hc]; rfl, ?_⟩
        simp only [Thread.advance, List.length_cons] at hex ⊢
        rw [show t.pos + (bs.length + 1) = t.pos + 1 + bs.length by omega]
        exact hex
      · rw [if_neg hc] at h
        simp at h

/-- A match of the stream pattern, with the bounds of its payload group. -/
theorem exec_stream_capture (t r : Thread) (s : List Nat) (h : exec streamRegex t s = some r) :
    ∃ u cap rest, s = ascii "stream" ++ (u ++ 10 :: (cap ++ 10 :: (ascii "endstream" ++ rest))) ∧
      (∀ c ∈ cap, isAnyNotNL c = true) ∧ r.capStart = t.pos + 6 + u.length + 1 ∧
      r.capEnd = r.capStart + cap.length := by
  rw [streamRegex, lit, lit, List.append_assoc] at h
  obtain ⟨s1, hs1, h1⟩ := exec_bytes _ _ _ _ _ h
  rw [List.cons_append, exec_star] at h1
  obtain ⟨u, v, hv, -, h2⟩ := starGreedy_sound _ _ _ _ _ h1
  cases v with
  | nil => simp [exec] at h2
  | cons c v =>
    rw [List.cons_append, exec_byte_cons] at h2
    by_cases hc : c = 10
    · rw [if_pos hc, List.cons_append, exec_capOpen, List.cons_append, exec_starLazy] at h2
      obtain ⟨cap, w, hw, hcap, h3⟩ := starLazy_sound _ _ _ _ _ h2
      rw [List.cons_append, exec_capClose] at h3
      have h4 : exec (([10] ++ ascii "endstream").map Inst.byte ++ [])
          ⟨(Thread.advance ⟨t.pos + (ascii "stream").length + u.length, t.capStart,
              t.capEnd⟩).pos + cap.length,
            (Thread.advance ⟨t.pos + (ascii "stream").length + u.length, t.capStart,
              t.capEnd⟩).pos,
            (Thread.advance ⟨t.pos + (ascii "stream").length + u.length, t.capStart,
              t.capEnd⟩).pos + cap.length⟩ w = some r := by
        simpa using h3
      obtain ⟨rest, hrest, h5⟩ := exec_bytes _ _ _ _ _ h4
      simp only [exec_nil, Option.some.injEq] at h5
      refine ⟨u, cap, rest, ?_, hcap, ?_, ?_⟩
      · rw [hs1, hv, hc, hw, hrest]
        simp
      · rw [← h5]
        simp [Thread.advance, ascii_stream]
      · rw [← h5]
    · rw [if_neg hc] at h2
      simp at h2

/-- C28: in every buffer, group 1 of every match of the stream pattern, the raw
payload that `findStreams` hands to `tryDecompress`, has no newline byte; so no
match has a payload of more than one line. -/
theorem stream_payload_single_line (data : List Nat) :
    (∀ m ∈ findAllSubmatchIndex streamRegex data, 10 ∉ slice data m.capStart m.capEnd) ∧
      (∀ g ∈ findAllSubmatch streamRegex data, ∃ whole payload, g = [whole, payload] ∧
        10 ∉ payload) ∧
      (∀ P : List Nat, 10 ∈ P → ∀ g ∈ findAllSubmatch streamRegex data, ∀ whole,
        g ≠ [whole, P]) := by
  have key : ∀ m ∈ findAllSubmatchIndex streamRegex data,
      10 ∉ slice data m.capStart m.capEnd := by
    intro m hm
    obtain ⟨a, s1, hs, hstart, -, hex⟩ := mem_findAllFrom streamRegex data 0 0 m hm
    obtain ⟨u, cap, rest, hshape, hcap, hcs, hce⟩ := exec_stream_capture _ _ _ hex
    simp only at hcs hce
    have hslice : slice data m.capStart m.capEnd = cap := by
      have h := slice_mid (a ++ ascii "stream" ++ u ++ [10]) cap
        (10 :: (ascii "endstream" ++ rest))
      have hd : data = a ++ ascii "stream" ++ u ++ [10] ++ cap ++
          10 :: (ascii "endstream" ++ rest) := by
        rw [hs, hshape]
        simp
      have hl : (a ++ ascii "stream" ++ u ++ [10]).length = m.capStart := by
        rw [hcs, hstart]
        simp [ascii_stream]
        omega
      rw [hd, hce, ← hl]
      exact h
    rw [hslice]
    intro h10
    have := hcap 10 h10
    simp [isAnyNotNL] at this
  have second : ∀ g ∈ findAllSubmatch streamRegex data, ∃ whole payload, g = [whole, payload] ∧
      10 ∉ payload := by
    intro g hg
    simp only [findAllSubmatch, List.mem_map] at hg
    obtain ⟨m, hm, rfl⟩ := hg
    exact ⟨_, _, rfl, key m hm⟩
  refine ⟨key, second, ?_⟩
  intro P hP g hg whole hgP
  obtain ⟨w2, payload, hg2, hno⟩ := second g hg
  rw [hgP] at hg2
  simp only [List.cons.injEq, and_true] at hg2
  exact hno (hg2.2 ▸ hP)

theorem stream_payload_single_line_witness :
    10 ∉ slice (ascii "stream\nA\nendstream") 7 8 ∧
      ∀ whole, [ascii "stream\nA\nB\nendstream", ascii "A\nB"] ≠ [whole, ascii "A\nB"] ∨
        [ascii "stream\nA\nB\nendstream", ascii "A\nB"] ∉
          findAllSubmatch streamRegex (ascii "stream\nA\nB\nendstream") :=
  ⟨(stream_payload_single_line (ascii "stream\nA\nendstream")).1 ⟨0, 18, 7, 8⟩ (by decide),
    fun whole => Or.inr (fun hmem =>
      (stream_payload_single_line (ascii "stream\nA\nB\nendstream")).2.2 (ascii "A\nB")
        (by decide) _ hmem _ rfl)⟩

/-! ## Order of the fragments of a stream -/

theorem writeFragment_nil_eq (fragment : List Nat) :
    writeFragment [] fragment = joinFragments [fragment] := by
  cases fragment <;> simp [writeFragment, joinFragments]

theorem joinFragments_cons (f : List Nat) (l : List (List Nat)) :
    joinFragments (f :: l) = writeFragment [] f ++ joinFragments l := by
  cases f <;> simp [writeFragment, joinFragments]

/-- A pass writes the decoded group of each match, in match order. -/
theorem pass_eq_joinFragments (data : List Nat) (d : List Nat → List Nat) :
    ∀ (l : List Submatch) (acc : List Nat),
      (l.map fun m => [slice data m.start m.stop, slice data m.capStart m.capEnd]).foldl
        (fun text m =>
          match m with
          | _ :: g :: _ => writeFragment text (d g)
          | _ => text) acc =
      acc ++ joinFragments (l.map fun m => d (slice data m.capStart m.capEnd)) := by
  intro l
  induction l with
  | nil => intro acc; simp [joinFragments]
  | cons m l ih =>
    intro acc
    rw [List.map_cons, List.foldl_cons, ih, List.map_cons, joinFragments_cons]
    simp only
    rw [writeFragment_eq, List.append_assoc]

/-- The text of a stream, pass by pass. -/
theorem extractTextFromStream_joined (pr : PDFReader) (stream : List Nat) :
    extractTextFromStream pr stream =
      joinFragments ((findAllSubmatchIndex textRegex stream).map fun m =>
          cleanPDFText pr (slice stream m.capStart m.capEnd)) ++
        joinFragments ((findAllSubmatchIndex hexRegex stream).map fun m =>
          hexToText pr (slice stream m.capStart m.capEnd)) ++
        joinFragments ((findAllSubmatchIndex tjRegex stream).map fun m =>
          cleanPDFText pr (slice stream m.capStart m.capEnd)) := by
  rw [extractTextFromStream_eq]
  have h1 := pass_eq_joinFragments stream (cleanPDFText pr) (findAllSubmatchIndex textRegex stream) []
  have h2 := pass_eq_joinFragments stream (hexToText pr) (findAllSubmatchIndex hexRegex stream) []
  have h3 := pass_eq_joinFragments stream (cleanPDFText pr) (findAllSubmatchIndex tjRegex stream) []
  simp only [List.nil_append] at h1 h2 h3
  simp only [literalPass, hexPass, tjPass, findAllSubmatch, h1, h2, h3]

/-- C23: the text of a stream is the non-empty decoded groups of the
literal-string matches in match order, then those of the hex-string matches,
then those of the text-show matches, each followed by one space; the payload
`<48656C6C6F> (World)Tj` gives `World Hello World `. -/
theorem stream_text_pass_order (pr : PDFReader) (stream : List Nat) :
    extractTextFromStream pr stream =
        joinFragments ((findAllSubmatchIndex textRegex stream).map fun m =>
            cleanPDFText pr (slice stream m.capStart m.capEnd)) ++
          joinFragments ((findAllSubmatchIndex hexRegex stream).map fun m =>
            hexToText pr (slice stream m.capStart m.capEnd)) ++
          joinFragments ((findAllSubmatchIndex tjRegex stream).map fun m =>
            cleanPDFText pr (slice stream m.capStart m.capEnd)) ∧
      extractTextFromStream pr (ascii "<48656C6C6F> (World)Tj") = ascii "World Hello World " := by
  refine ⟨extractTextFromStream_joined pr stream, ?_⟩
  show extractTextFromStream defaultReader (ascii "<48656C6C6F> (World)Tj") = _
  decide

/-! ## Hex digits outside the brackets, and the operator `TJ` -/

theorem exec_hex_then_rest (c : Nat) (h rest : List Nat) (t : Thread)
    (hcls : ∀ x ∈ c :: h, isHexOrSpace x = true) :
    exec hexRegex t (60 :: (c :: h ++ 62 :: rest)) =
      some ⟨t.pos + h.length + 3, t.pos + 1, t.pos + 2 + h.length⟩ := by
  have hc : isHexOrSpace c = true := hcls c (by simp)
  have hh : ∀ x ∈ h, isHexOrSpace x = true := fun x hx => hcls x (by simp [hx])
  rw [hexRegex]
  simp only [List.cons_append, exec_byte_cons, if_true, exec_capOpen, exec_cls_cons, hc, exec_star]
  rw [starGreedy_run_some isHexOrSpace _ h (62 :: rest) _
    ⟨t.pos + h.length + 3, t.pos + 1, t.pos + 2 + h.length⟩ hh]
  rw [starGreedy, if_neg (by decide)]
  simp [exec, Thread.advance]
  omega

theorem findAll_hex_then_rest (h rest : List Nat) (hne : h ≠ [])
    (hcls : ∀ x ∈ h, isHexOrSpace x = true) (hrest : 60 ∉ rest) :
    findAllSubmatchIndex hexRegex (60 :: (h ++ 62 :: rest)) =
      [⟨0, h.length + 2, 1, 1 + h.length⟩] := by
  obtain ⟨c, h1, rfl⟩ := List.exists_cons_of_ne_nil hne
  have hex := exec_hex_then_rest c h1 rest ⟨0, 0, 0⟩ hcls
  rw [findAllSubmatchIndex, findAllFrom_cons_some _ _ _ _ _ hex]
  have hsplit : c :: h1 ++ 62 :: rest = (c :: h1 ++ [62]) ++ rest := by simp
  have hlen : 0 + h1.length + 3 - 0 - 1 = (c :: h1 ++ [62]).length := by simp
  simp only
  rw [hsplit, hlen, findAllFrom_skip, hexRegex, findAllFrom_first_byte 60 _ _ _ hrest]
  simp
  omega

/-- C24: after a hex string `<`, `h`, `>` the hex digits that follow it add
nothing: the text of the stream is what `hexToText h` gives, with its space;
the payload `<48656C6C>6F` gives `Hell` and one space. -/
theorem hex_digits_outside_brackets (pr : PDFReader) (h rest : List Nat) (hne : h ≠ [])
    (hcls : ∀ x ∈ h, isHexOrSpace x = true) (hrest : ∀ x ∈ rest, isHexDigit x = true) :
    hexPass pr (60 :: (h ++ 62 :: rest)) [] = writeFragment [] (hexToText pr h) ∧
      extractTextFromStream pr (60 :: (h ++ 62 :: rest)) = writeFragment [] (hexToText pr h) ∧
      extractTextFromStream pr (ascii "<48656C6C>6F") = ascii "Hell " := by
  have h60 : 60 ∉ rest := fun hm => absurd (hrest 60 hm) (by decide)
  have hno : 40 ∉ 60 :: (h ++ 62 :: rest) := by
    intro hm
    simp only [List.mem_cons, List.mem_append] at hm
    rcases hm with hm | hm | hm | hm
    · omega
    · exact absurd (hcls 40 hm) (by decide)
    · omega
    · exact absurd (hrest 40 hm) (by decide)
  have hhex : hexPass pr (60 :: (h ++ 62 :: rest)) [] = writeFragment [] (hexToText pr h) := by
    simp only [hexPass, findAllSubmatch, findAll_hex_then_rest h rest hne hcls h60, List.map_cons,
      List.map_nil, List.foldl_cons, List.foldl_nil, slice_after_head]
  refine ⟨hhex, ?_, ?_⟩
  · rw [extractTextFromStream_eq, literalPass_eq_nil_of_no_open pr _ hno, hhex,
      tjPass_eq_nil_of_no_open pr _ hno]
    simp
  · show extractTextFromStream defaultReader (ascii "<48656C6C>6F") = ascii "Hell "
    decide

theorem hex_digits_outside_brackets_witness :
    extractTextFromStream defaultReader (60 :: (ascii "48656C6C" ++ 62 :: ascii "6F")) =
      ascii "Hell " := by
  have h := (hex_digits_outside_brackets defaultReader (ascii "48656C6C") (ascii "6F")
    (by decide) (by decide) (by decide)).2.1
  rw [h]
  decide

/-- Shape of every word of the text-show pattern. -/
theorem accepts_tjRegex (w : List Nat) (h : Accepts tjRegex w) :
    ∃ cap ws, w = 40 :: (cap ++ 41 :: (ws ++ [84, 106])) ∧ (∀ c ∈ ws, isSpace c = true) := by
  rw [tjRegex] at h
  simp only [Accepts] at h
  obtain ⟨_, rfl, cap, _, rfl, -, _, rfl, ws, _, rfl, hws, _, rfl, _, rfl, rfl⟩ := h
  exact ⟨cap, ws, rfl, hws⟩

/-- A byte that occurs once splits the list in one way only. -/
theorem split_unique (a : Nat) (l1 r1 l2 r2 : List Nat) (h : l1 ++ a :: r1 = l2 ++ a :: r2)
    (hl : a ∉ l1) (hr : a ∉ r1) : r2 = r1 := by
  rcases List.append_eq_append_iff.mp h with ⟨x, _, hx⟩ | ⟨x, hx1, hx⟩
  · cases x with
    | nil => simpa using hx.symm
    | cons y x =>
      simp only [List.cons_append, List.cons.injEq] at hx
      exact absurd (by rw [hx.2]; simp) hr
  · cases x with
    | nil => simpa using hx
    | cons y x =>
      simp only [List.cons_append, List.cons.injEq] at hx
      exact absurd (by rw [hx1, ← hx.1]; simp) hl

/-- The text-show pattern matches nowhere in `(`, `X`, `)TJ`. -/
theorem findAll_tj_upper (X : List Nat) (h1 : 41 ∉ X) :
    findAllSubmatchIndex tjRegex (40 :: (X ++ [41, 84, 74])) = [] := by
  apply findAllFrom_eq_nil
  intro s1 t hs
  cases hex : exec tjRegex t s1 with
  | none => rfl
  | some r =>
    exfalso
    obtain ⟨w, rest, hw, hacc, -⟩ := exec_sound _ _ _ _ hex
    obtain ⟨cap, ws, rfl, hws⟩ := accepts_tjRegex w hacc
    obtain ⟨pre, hpre⟩ := hs
    have hsplit : (40 :: X) ++ 41 :: [84, 74] =
        (pre ++ 40 :: cap) ++ 41 :: (ws ++ 84 :: 106 :: rest) := by
      have hp : (40 :: X) ++ 41 :: [84, 74] = pre ++ s1 := by rw [hpre]; simp
      rw [hp, hw]
      simp
    have h40 : 41 ∉ 40 :: X := by
      intro hm
      rcases List.mem_cons.mp hm with hm | hm
      · omega
      · exact h1 hm
    have := split_unique 41 _ _ _ _ hsplit h40 (by decide)
    cases ws with
    | nil => simp at this
    | cons c ws =>
      simp only [List.cons_append, List.cons.injEq] at this
      have hc := hws c (by simp)
      rw [this.1] at hc
      exact absurd hc (by decide)

/-- C25: the text-show pattern has `Tj` only.  On `(`, `X`, `)TJ`, where `X` has
no `)`, the pass writes nothing; `(Hi)TJ` gives nothing and `(Hi)Tj` gives `Hi`
and a space. -/
theorem tjPass_upper_case_operator (pr : PDFReader) :
    (∀ X : List Nat, 41 ∉ X → tjPass pr (40 :: (X ++ [41, 84, 74])) [] = []) ∧
      tjPass pr (ascii "(Hi)TJ") [] = [] ∧
      tjPass pr (ascii "(Hi)Tj") [] = ascii "Hi " ∧
      cleanPDFText pr (ascii "Hi") = ascii "Hi" := by
  refine ⟨?_, ?_, ?_, ?_⟩
  · intro X hX
    simp [tjPass, findAllSubmatch, findAll_tj_upper X hX]
  · show tjPass defaultReader (ascii "(Hi)TJ") [] = []
    decide
  · show tjPass defaultReader (ascii "(Hi)Tj") [] = ascii "Hi "
    decide
  · show cleanPDFText defaultReader (ascii "Hi") = ascii "Hi"
    decide

/-! ## The alphabet of the result -/

theorem keepRune_of_mem_cleanPDFText (pr : PDFReader) (text : List Nat) (c : Nat)
    (h : c ∈ cleanPDFText pr text) : keepRune c = true := by
  rw [cleanPDFText_eq] at h
  exact (List.mem_filter.mp h).2

theorem keepRune_of_mem_hexPairs :
    ∀ (n : Nat) (h : List Nat), h.length ≤ n → ∀ c ∈ hexPairs h, keepRune c = true := by
  intro n
  induction n using Nat.strong_induction_on with
  | _ n ih =>
    intro h hlen c hc
    match h, hlen, hc with
    | [], _, hc => simp [hexPairs] at hc
    | [_], _, hc => simp [hexPairs] at hc
    | a :: b :: s, hlen, hc =>
      simp only [hexPairs, List.mem_append] at hc
      rcases hc with hc | hc
      · cases ha : hexDigit a with
        | none => simp [ha] at hc
        | some x =>
          cases hb : hexDigit b with
          | none => simp [ha, hb] at hc
          | some y =>
            simp only [ha, hb] at hc
            split_ifs at hc with hv
            · simp only [List.mem_singleton] at hc
              subst hc
              simp [keepRune]
              omega
            · simp at hc
      · exact ih s.length (by simp at hlen; omega) s (le_refl _) c hc

theorem keepRune_of_mem_hexToText (pr : PDFReader) (h : List Nat) (c : Nat)
    (hc : c ∈ hexToText pr h) : keepRune c = true := by
  simp only [hexToText] at hc
  split_ifs at hc
  · simp at hc
  · exact keepRune_of_mem_hexPairs _ _ (le_refl _) c hc

theorem mem_joinFragments (l : List (List Nat)) (c : Nat) (h : c ∈ joinFragments l) :
    c = 32 ∨ ∃ f ∈ l, c ∈ f := by
  simp only [joinFragments, List.mem_flatMap, List.mem_filter, List.mem_append,
    List.mem_singleton] at h
  obtain ⟨f, ⟨hf, -⟩, hc | hc⟩ := h
  · exact Or.inr ⟨f, hf, hc⟩
  · exact Or.inl hc

theorem keepRune_of_mem_stream_text (pr : PDFReader) (stream : List Nat) (c : Nat)
    (h : c ∈ extractTextFromStream pr stream) : keepRune c = true := by
  rw [extractTextFromStream_joined] at h
  simp only [List.mem_append] at h
  rcases h with (h | h) | h
  · rcases mem_joinFragments _ c h with rfl | ⟨f, hf, hc⟩
    · decide
    · obtain ⟨m, -, rfl⟩ := List.mem_map.mp hf
      exact keepRune_of_mem_cleanPDFText pr _ c hc
  · rcases mem_joinFragments _ c h with rfl | ⟨f, hf, hc⟩
    · decide
    · obtain ⟨m, -, rfl⟩ := List.mem_map.mp hf
      exact keepRune_of_mem_hexToText pr _ c hc
  · rcases mem_joinFragments _ c h with rfl | ⟨f, hf, hc⟩
    · decide
    · obtain ⟨m, -, rfl⟩ := List.mem_map.mp hf
      exact keepRune_of_mem_cleanPDFText pr _ c hc

theorem mem_collapseFrom :
    ∀ (s : List Nat) (b : Bool) (c : Nat), c ∈ collapseFrom b s →
      c = 32 ∨ (c ∈ s ∧ isSpace c = false) := by
  intro s
  induction s with
  | nil => intro b c h; simp [collapseFrom] at h
  | cons x s ih =>
    intro b c h
    by_cases hx : isSpace x = true
    · cases b
      · simp only [collapseFrom, hx, if_true, Bool.false_eq_true, if_false, List.mem_cons] at h
        rcases h with h | h
        · exact Or.inl h
        · rcases ih true c h with h | h
          · exact Or.inl h
          · exact Or.inr ⟨List.mem_cons_of_mem _ h.1, h.2⟩
      · simp only [collapseFrom, hx, if_true] at h
        rcases ih true c h with h | h
        · exact Or.inl h
        · exact Or.inr ⟨List.mem_cons_of_mem _ h.1, h.2⟩
    · simp only [collapseFrom, hx, Bool.false_eq_true, if_false, List.mem_cons] at h
      rcases h with h | h
      · subst h
        exact Or.inr ⟨List.mem_cons_self _ _, by simpa using hx⟩
      · rcases ih false c h with h | h
        · exact Or.inl h
        · exact Or.inr ⟨List.mem_cons_of_mem _ h.1, h.2⟩

theorem no_double_space_of_singleSpaced :
    ∀ (l : List Nat) (b : Bool), SingleSpaced b l → ¬ ([32, 32] <:+: l) := by
  intro l
  induction l with
  | nil => intro b _ h; simp at h
  | cons c l ih =>
    intro b hss h
    rcases List.infix_cons_iff.mp h with h | h
    · obtain ⟨x, hx⟩ := h
      simp only [List.cons_append, List.nil_append, List.cons.injEq] at hx
      obtain ⟨rfl, rfl⟩ := hx
      simp [SingleSpaced, isSpace] at hss
    · by_cases hc : isSpace c = true
      · simp only [SingleSpaced, hc, if_true] at hss
        exact ih true hss.2.2 h
      · simp only [SingleSpaced, hc, Bool.false_eq_true, if_false] at hss
        exact ih false hss h

/-- What `cleanText` returns on a text of kept bytes. -/
theorem cleanText_alphabet (pr : PDFReader) (text : List Nat)
    (htext : ∀ c ∈ text, keepRune c = true) :
    (∀ c ∈ cleanText pr text, 32 ≤ c ∧ c ≤ 126) ∧ (cleanText pr text).head? ≠ some 32 ∧
      (cleanText pr text).getLast? ≠ some 32 ∧ ¬ ([32, 32] <:+: cleanText pr text) := by
  rw [cleanText_eq]
  obtain ⟨⟨a, x, hax⟩, hhead, hlast, -⟩ := trimSpace_spec (collapseFrom false text)
  have hss : SingleSpaced false (collapseFrom false text) := singleSpaced_collapse text false
  generalize trimSpace (collapseFrom false text) = out at hax hhead hlast
  refine ⟨?_, ?_, ?_, ?_⟩
  · intro c hc
    have hmem : c ∈ collapseFrom false text := by
      rw [hax]
      simp [hc]
    rcases mem_collapseFrom text false c hmem with rfl | ⟨h1, h2⟩
    · omega
    · have hk := htext c h1
      simp only [keepRune, Bool.or_eq_true, Bool.and_eq_true, decide_eq_true_eq,
        beq_iff_eq] at hk
      simp only [isSpace, Bool.or_eq_false_iff, beq_eq_false_iff_ne, ne_eq] at h2
      omega
  · cases out with
    | nil => simp
    | cons c out =>
      simp only [List.head?_cons, ne_eq, Option.some.injEq]
      rintro rfl
      simp [spaceRuneLen, isAsciiSpace] at hhead
  · rw [List.getLast?_eq_head?_reverse]
    cases hrev : out.reverse with
    | nil => simp
    | cons c l =>
      simp only [List.head?_cons, ne_eq, Option.some.injEq]
      rintro rfl
      rw [hrev] at hlast
      simp [spaceRuneLenRev, isAsciiSpace] at hlast
  · intro h
    rw [hax] at hss
    have hout : SingleSpaced false out :=
      singleSpaced_prefix _ x false (singleSpaced_suffix a _ false hss)
    exact no_double_space_of_singleSpaced out false hout h

/-- C27: whatever the buffer, every byte of the string that `extractTextFromPDF`
returns lies in 32..126, the string neither starts nor ends with a space, and
it has no two spaces in a row. -/
theorem output_alphabet (pr : PDFReader) (z : Zlib) (data : List Nat) :
    (∀ c ∈ (extractTextFromPDF pr z data).1, 32 ≤ c ∧ c ≤ 126) ∧
      (extractTextFromPDF pr z data).1.head? ≠ some 32 ∧
      (extractTextFromPDF pr z data).1.getLast? ≠ some 32 ∧
      ¬ ([32, 32] <:+: (extractTextFromPDF pr z data).1) := by
  have h := extractTextFromPDF_loop pr (findStreams pr z data) []
  simp only [List.nil_append] at h
  simp only [extractTextFromPDF, h]
  apply cleanText_alphabet
  intro c hc
  simp only [List.mem_flatMap] at hc
  obtain ⟨stream, -, hc⟩ := hc
  split_ifs at hc with hempty
  · simp at hc
  · rcases List.mem_append.mp hc with hc | hc
    · exact keepRune_of_mem_stream_text pr stream c hc
    · simp only [List.mem_singleton] at hc
      subst hc
      decide

/-! ## Normalisation of a text without newline -/

theorem collapseFrom_eq_blank :
    ∀ (s : List Nat) (b : Bool), 10 ∉ s → collapseFrom b s = collapseBlankFrom b s := by
  intro s
  induction s with
  | nil => intro b _; rfl
  | cons c s ih =>
    intro b h
    have hc : c ≠ 10 := fun e => h (by simp [e])
    have hs : 10 ∉ s := fun e => h (List.mem_cons_of_mem _ e)
    have hsp : isSpace c = isBlank c := by
      rw [Bool.eq_iff_iff]
      simp only [isSpace, isBlank, Bool.or_eq_true, beq_iff_eq]
      omega
    simp only [collapseFrom, collapseBlankFrom, hsp, ih _ hs]

/-- When the length of a leading rune is 1 on the bytes of a class and 0
elsewhere, dropping runes is dropping the bytes of the class. -/
theorem dropRunes_eq_dropWhile (len : List Nat → Nat) (p : Nat → Bool) (h0 : len [] = 0) :
    ∀ (l : List Nat) (fuel : Nat), l.length ≤ fuel →
      (∀ c rest, c :: rest <:+ l → len (c :: rest) = if p c then 1 else 0) →
      dropRunes len fuel l = l.dropWhile p := by
  intro l
  induction l with
  | nil =>
    intro fuel _ _
    cases fuel with
    | zero => rfl
    | succ n => simp [dropRunes, h0]
  | cons c l ih =>
    intro fuel hlen h
    cases fuel with
    | zero => simp at hlen
    | succ n =>
      have hc := h c l (List.suffix_refl _)
      have hl : ∀ x rest, x :: rest <:+ l → len (x :: rest) = if p x then 1 else 0 :=
        fun x rest hx => h x rest (hx.trans (List.suffix_cons c l))
      rw [dropRunes, hc]
      by_cases hp : p c = true
      · simp only [hp, if_true, one_ne_zero, if_false, List.drop_succ_cons, List.drop_zero]
        rw [ih n (by simpa using hlen) hl, List.dropWhile_cons, if_pos hp]
      · simp only [hp, Bool.false_eq_true, if_false, if_true]
        rw [List.dropWhile_cons, if_neg hp]

theorem spaceRuneLen_ascii (c : Nat) (rest : List Nat) (h1 : c < 128) (h2 : c ≠ 11)
    (h3 : c ≠ 10) : spaceRuneLen (c :: rest) = if isBlank c then 1 else 0 := by
  have hsp : isAsciiSpace c = isBlank c := by
    rw [Bool.eq_iff_iff]
    simp only [isAsciiSpace, isBlank, Bool.or_eq_true, beq_iff_eq]
    omega
  by_cases hb : isBlank c = true
  · simp [spaceRuneLen, hsp, hb]
  · rcases rest with _ | ⟨b, _ | ⟨d, r⟩⟩ <;>
      simp only [spaceRuneLen, hsp, hb, Bool.false_eq_true, if_false] <;>
      split_ifs <;> first | rfl | omega

theorem spaceRuneLenRev_ascii (c : Nat) (rest : List Nat) (h1 : c < 128) (h2 : c ≠ 11)
    (h3 : c ≠ 10) : spaceRuneLenRev (c :: rest) = if isBlank c then 1 else 0 := by
  have hsp : isAsciiSpace c = isBlank c := by
    rw [Bool.eq_iff_iff]
    simp only [isAsciiSpace, isBlank, Bool.or_eq_true, beq_iff_eq]
    omega
  by_cases hb : isBlank c = true
  · simp [spaceRuneLenRev, hsp, hb]
  · rcases rest with _ | ⟨b, _ | ⟨d, r⟩⟩ <;>
      simp only [spaceRuneLenRev, hsp, hb, Bool.false_eq_true, if_false] <;>
      split_ifs <;> first | rfl | omega

/-- On ASCII bytes other than newline and vertical tab, `strings.TrimSpace`
removes the leading and trailing blanks. -/
theorem trimSpace_ascii (l : List Nat) (h : ∀ c ∈ l, c < 128 ∧ c ≠ 11 ∧ c ≠ 10) :
    trimSpace l = trimBlank l := by
  have h1 : dropRunes spaceRuneLen l.length l = l.dropWhile isBlank := by
    apply dropRunes_eq_dropWhile _ _ rfl _ _ (le_refl _)
    intro c rest hc
    have hm := h c (hc.subset (List.mem_cons_self _ _))
    exact spaceRuneLen_ascii c rest hm.1 hm.2.1 hm.2.2
  have h2 : ∀ l2 : List Nat, (∀ c ∈ l2, c < 128 ∧ c ≠ 11 ∧ c ≠ 10) →
      dropRunes spaceRuneLenRev l2.length l2.reverse = l2.reverse.dropWhile isBlank := by
    intro l2 hl2
    apply dropRunes_eq_dropWhile _ _ rfl _ _ (by simp)
    intro c rest hc
    have hm := hl2 c (List.mem_reverse.mp (hc.subset (List.mem_cons_self _ _)))
    exact spaceRuneLenRev_ascii c rest hm.1 hm.2.1 hm.2.2
  simp only [trimSpace, trimBlank, h1]
  rw [h2 _ (fun c hc => h c ((List.dropWhile_suffix _).subset hc))]

theorem filter_dropWhile_blank (l : List Nat) :
    (l.dropWhile isBlank).filter (fun c => !isBlank c) = l.filter (fun c => !isBlank c) := by
  induction l with
  | nil => rfl
  | cons c l ih =>
    by_cases hc : isBlank c = true
    · rw [List.dropWhile_cons, if_pos hc, ih, List.filter_cons]
      simp [hc]
    · rw [List.dropWhile_cons, if_neg hc]

theorem filter_trimBlank (l : List Nat) :
    (trimBlank l).filter (fun c => !isBlank c) = l.filter (fun c => !isBlank c) := by
  rw [trimBlank, List.filter_reverse, filter_dropWhile_blank, ← List.filter_reverse,
    List.reverse_reverse, filter_dropWhile_blank]

theorem filter_collapseBlank :
    ∀ (s : List Nat) (b : Bool),
      (collapseBlankFrom b s).filter (fun c => !isBlank c) = s.filter (fun c => !isBlank c) := by
  intro s
  induction s with
  | nil => intro b; rfl
  | cons c s ih =>
    intro b
    by_cases hc : isBlank c = true
    · cases b
      · simp only [collapseBlankFrom, hc, if_true, Bool.false_eq_true, if_false, List.filter_cons,
          ih true]
        simp [isBlank]
      · simp only [collapseBlankFrom, hc, if_true, List.filter_cons, ih true]
        simp
    · simp only [collapseBlankFrom, hc, Bool.false_eq_true, if_false, List.filter_cons, ih false]

/-- C21, as the code has it: on a text without newline `cleanText` replaces
every maximal run of blanks (space, tab, carriage return, form feed) by one
space and then applies `strings.TrimSpace`; when the text is ASCII without
vertical tab this removes exactly the leading and trailing blanks, and the
other bytes are kept unchanged and in order. -/
theorem cleanText_no_newline (pr : PDFReader) (s : List Nat) (h10 : 10 ∉ s) :
    cleanText pr s = trimSpace (collapseBlankFrom false s) ∧
      ((∀ c ∈ s, c < 128 ∧ c ≠ 11) →
        cleanText pr s = trimBlank (collapseBlankFrom false s) ∧
          (cleanText pr s).filter (fun c => !isBlank c) = s.filter (fun c => !isBlank c)) := by
  have hgen : cleanText pr s = trimSpace (collapseBlankFrom false s) := by
    rw [cleanText_eq, collapseFrom_eq_blank s false h10]
  refine ⟨hgen, ?_⟩
  intro hascii
  have hu : ∀ c ∈ collapseBlankFrom false s, c < 128 ∧ c ≠ 11 ∧ c ≠ 10 := by
    intro c hc
    rw [← collapseFrom_eq_blank s false h10] at hc
    rcases mem_collapseFrom s false c hc with rfl | ⟨h1, -⟩
    · omega
    · have := hascii c h1
      exact ⟨this.1, this.2, fun e => h10 (e ▸ h1)⟩
  have heq : cleanText pr s = trimBlank (collapseBlankFrom false s) := by
    rw [hgen, trimSpace_ascii _ hu]
  refine ⟨heq, ?_⟩
  rw [heq, filter_trimBlank, filter_collapseBlank]

theorem cleanText_no_newline_witness :
    cleanText defaultReader (ascii "  a \t b\r") = ascii "a b" := by
  have h := ((cleanText_no_newline defaultReader (ascii "  a \t b\r") (by decide)).2
    (by decide)).1
  rw [h]
  decide

/-- C21 as stated fails: the text vertical tab, `a` has no newline and no run
of blanks, and `cleanText` returns `a`: `strings.TrimSpace` also removes the
vertical tab. -/
theorem cleanText_trims_vertical_tab :
    10 ∉ [11, 97] ∧ trimBlank (collapseBlankFrom false [11, 97]) = [11, 97] ∧
      cleanText defaultReader [11, 97] = [97] := by
  decide

/-! ## Verbose mode -/

theorem extractStep_builder (pr : PDFReader) (streams : List (List Nat)) :
    ∀ st : List LogLine × List Nat × Nat,
      (streams.foldl (extractStep pr) st).2.1 =
        streams.foldl
          (fun extractedText stream =>
            if extractTextFromStream pr stream ≠ [] then
              extractedText ++ extractTextFromStream pr stream ++ [32]
            else extractedText) st.2.1 := by
  induction streams with
  | nil => intro st; rfl
  | cons x l ih =>
    intro st
    rw [List.foldl_cons, ih, List.foldl_cons]
    congr 1
    simp only [extractStep]
    split_ifs <;> rfl

theorem extractStep_quiet (pr : PDFReader) (hq : pr.verbose = false)
    (streams : List (List Nat)) :
    ∀ st : List LogLine × List Nat × Nat,
      (streams.foldl (extractStep pr) st).1 = st.1 := by
  induction streams with
  | nil => intro st; rfl
  | cons x l ih =>
    intro st
    rw [List.foldl_cons, ih]
    simp only [extractStep, hq, Bool.false_eq_true, if_false]
    split_ifs <;> rfl

theorem extractTextFromPDFVerbose_result (pr : PDFReader) (z : Zlib) (data : List Nat) :
    (extractTextFromPDFVerbose pr z data).2 = extractTextFromPDF pr z data := by
  simp only [extractTextFromPDFVerbose, extractTextFromPDF, extractStep_builder]

/-- C22: the string and the error that `extractTextFromPDF` returns do not
depend on the reader: with `verbose` set and any base path they are those of a
reader without `verbose` and with another base path; `verbose` only adds
printed lines, and without it nothing is printed. -/
theorem verbose_does_not_change_result (z : Zlib) (data : List Nat) (base1 base2 : List Nat) :
    (extractTextFromPDFVerbose ⟨base1, true⟩ z data).2 =
        (extractTextFromPDFVerbose ⟨base2, false⟩ z data).2 ∧
      extractTextFromPDF ⟨base1, true⟩ z data = extractTextFromPDF ⟨base2, false⟩ z data ∧
      (extractTextFromPDFVerbose ⟨base2, false⟩ z data).1 = [] ∧
      (extractTextFromPDFVerbose ⟨base1, true⟩ z data).1 ≠ [] := by
  have hsame : extractTextFromPDF ⟨base1, true⟩ z data =
      extractTextFromPDF ⟨base2, false⟩ z data := rfl
  refine ⟨?_, hsame, ?_, ?_⟩
  · rw [extractTextFromPDFVerbose_result, extractTextFromPDFVerbose_result, hsame]
  · simp only [extractTextFromPDFVerbose, Bool.false_eq_true, if_false]
    exact extractStep_quiet _ rfl _ _
  · simp [extractTextFromPDFVerbose]

/-! ## The file path -/

theorem hasSuffixBytes_iff (s suffix : List Nat) :
    hasSuffixBytes s suffix = true ↔ suffix <:+ s := by
  rw [hasSuffixBytes, hasPrefixBytes_iff, List.reverse_prefix]

theorem toLowerByte_eq (c v : Nat) (h : toLowerByte c = v) :
    c = v ∨ (65 ≤ c ∧ c ≤ 90 ∧ c + 32 = v) := by
  unfold toLowerByte at h
  split_ifs at h <;> omega

/-- The suffix test of `resolveFilePath` is the comparison of the last four
bytes with `.pdf` without regard to case. -/
theorem hasSuffix_pdf_iff (filename : List Nat) :
    hasSuffixBytes (toLower filename) (ascii ".pdf") = true ↔ EndsInPdf filename := by
  rw [hasSuffixBytes_iff, show ascii ".pdf" = [46, 112, 100, 102] by decide]
  constructor
  · rintro ⟨pre, hpre⟩
    rw [toLower] at hpre
    obtain ⟨l1, l2, rfl, -, h2⟩ := List.map_eq_append_iff.mp hpre.symm
    rcases l2 with _ | ⟨x, _ | ⟨a, _ | ⟨b, _ | ⟨c, _ | ⟨d, r⟩⟩⟩⟩⟩ <;>
      simp only [List.map_cons, List.map_nil, List.cons.injEq, and_true, and_false,
        reduceCtorEq] at h2
    obtain ⟨hx, ha, hb, hc⟩ := h2
    have hx2 := toLowerByte_eq x 46 hx
    have ha2 := toLowerByte_eq a 112 ha
    have hb2 := toLowerByte_eq b 100 hb
    have hc2 := toLowerByte_eq c 102 hc
    have hx3 : x = 46 := by omega
    subst hx3
    exact ⟨l1, a, b, c, rfl, by omega, by omega, by omega⟩
  · rintro ⟨pre, a, b, c, rfl, ha, hb, hc⟩
    refine ⟨pre.map toLowerByte, ?_⟩
    rw [toLower, List.map_append]
    congr 1
    rcases ha with rfl | rfl <;> rcases hb with rfl | rfl <;> rcases hc with rfl | rfl <;> rfl

/-- C26: `resolveFilePath` returns the file name as it is when `filepath.IsAbs`
holds of it or when it ends in `.pdf`, in either case of each letter; otherwise
it returns `filepath.Join` of the base path, or of `.` when the base path is
empty, with the name followed by `.pdf`. -/
theorem resolveFilePath_spec (lib : PathLib) (pr : PDFReader) (filename : List Nat) :
    (lib.isAbs filename = true ∨ EndsInPdf filename →
        resolveFilePath lib pr filename = filename) ∧
      (lib.isAbs filename = false → ¬ EndsInPdf filename →
        resolveFilePath lib pr filename =
          lib.join (if pr.basePath = [] then ascii "." else pr.basePath)
            (filename ++ ascii ".pdf")) := by
  constructor
  · intro h
    have hcond : (lib.isAbs filename || hasSuffixBytes (toLower filename) (ascii ".pdf")) = true := by
      rcases h with h | h
      · simp [h]
      · simp [(hasSuffix_pdf_iff filename).mpr h]
    simp only [resolveFilePath, hcond, if_true]
  · intro h1 h2
    have hs : hasSuffixBytes (toLower filename) (ascii ".pdf") = false := by
      rw [← Bool.not_eq_true, hasSuffix_pdf_iff]
      exact h2
    simp only [resolveFilePath, h1, hs, Bool.or_self, Bool.false_eq_true, if_false]

theorem resolveFilePath_spec_witness :
    resolveFilePath samplePathLib ⟨ascii "docs", false⟩ (ascii "report.PdF") =
        ascii "report.PdF" ∧
      resolveFilePath samplePathLib ⟨ascii "docs", false⟩ (ascii "/tmp/report") =
        ascii "/tmp/report" ∧
      resolveFilePath samplePathLib ⟨[], false⟩ (ascii "report") = ascii "./report.pdf" ∧
      resolveFilePath samplePathLib ⟨ascii "docs", true⟩ (ascii "report") =
        ascii "docs/report.pdf" := by
  refine ⟨?_, ?_, ?_, ?_⟩
  · exact (resolveFilePath_spec samplePathLib ⟨ascii "docs", false⟩ (ascii "report.PdF")).1
      (Or.inr ⟨ascii "report", 80, 100, 70, by decide, by decide, by decide, by decide⟩)
  · exact (resolveFilePath_spec samplePathLib ⟨ascii "docs", false⟩ (ascii "/tmp/report")).1
      (Or.inl (by decide))
  · rw [(resolveFilePath_spec samplePathLib ⟨[], false⟩ (ascii "report")).2 (by decide)
      (by rw [← hasSuffix_pdf_iff]; decide)]
    decide
  · rw [(resolveFilePath_spec samplePathLib ⟨ascii "docs", true⟩ (ascii "report")).2 (by decide)
      (by rw [← hasSuffix_pdf_iff]; decide)]
    decide

end ReadPdf
